import Mathlib

/-!
# configfile.c: loading and saving the configuration options

A shallow embedding of `src/enhancements/xdg_data_home_saving/configfile.c`.

* A C `char` is a `Char`; every byte value is a `Char`, so a statement over all
  `List Char` covers all byte strings.
* A `char *` is an index into a buffer (`List Char`); reading past the modelled
  bytes yields `NUL`, which every loop below treats as the end of the string.
* The global option variables are the fields of `Config`; an `unsigned int` is a
  `Nat` (32 bits wide where a value is stored by `sscanf`).
* A `FILE *` opened for reading is the list of bytes not read yet together with
  its end-of-file indicator.
* A `size_t` is a `Nat` below `2^64`; where it is passed to an `int` parameter the value
  is converted (`size_t_to_int`).
* The directories, the files, the working directory of the process and `errno` are the
  fields of `Sys`; a libc call that succeeds leaves `errno` as it was. The two paths that
  SDL resolves are parameters (`SDL`); `SDL_GetPrefPath` creates the directory it names.
* `assert` failures, `exit`, a null pointer handed to `opendir` and exhausted iteration
  bounds are `Except` errors.
-/

namespace Configfile

/-! ## Characters and C strings -/

/-- The terminating zero byte of a C string. -/
def NUL : Char := Char.ofNat 0

/-- The `isspace` of `<ctype.h>` in the "C" locale: space, and `\t \n \v \f \r`. -/
def isspace (c : Char) : Bool :=
  c.toNat == 32 || (9 ≤ c.toNat && c.toNat ≤ 13)

/-- The decimal digits, `isdigit` of `<ctype.h>`. -/
def isdigit (c : Char) : Bool :=
  48 ≤ c.toNat && c.toNat ≤ 57

/-- Dereference `*p` for a pointer `p` into the buffer `mem`. -/
def load (mem : List Char) (p : Nat) : Char :=
  mem.getD p NUL

/-- The C string that starts at `p`: the bytes from `p` up to the first `NUL`. -/
def cstr (mem : List Char) (p : Nat) : List Char :=
  (mem.drop p).takeWhile (fun c => c != NUL)

/-- The `strlen` of the string at the start of a buffer. -/
def strlen (mem : List Char) : Nat :=
  (cstr mem 0).length

/-! ## Formatted output and input of `unsigned int` -/

/-- Digits of `n`, least significant first, as `printf` produces them before reversal. -/
def utoa_rev : Nat → Nat → List Char
  | 0, _ => []
  | fuel + 1, n =>
    Char.ofNat (48 + n % 10) :: (if n / 10 = 0 then [] else utoa_rev fuel (n / 10))

/-- What `fprintf(file, "%u", n)` writes: the decimal numeral of `n`. -/
def fprintf_u (n : Nat) : List Char :=
  (utoa_rev (n + 1) n).reverse

/-- The value of a run of decimal digits, most significant first. -/
def digits_value (ds : List Char) : Nat :=
  ds.foldl (fun acc c => 10 * acc + (c.toNat - 48)) 0

/-- What `sscanf(s, "%u", &x)` stores in `x`, `none` when the conversion fails and `x`
is left alone. As `strtoul` in base 10: leading white space is skipped, one sign is
accepted, then the longest run of digits is read; without a digit nothing is stored.
The digits are converted in `unsigned long` (64 bits, saturating, negated modulo `2^64`
after a minus sign) and the result is stored in the 32-bit `unsigned int`. -/
def sscanf_u (s : List Char) : Option Nat :=
  let s := s.dropWhile isspace
  let neg := s.head? == some '-'
  let s := if s.head? == some '-' || s.head? == some '+' then s.tail else s
  let ds := s.takeWhile isdigit
  if ds.isEmpty then none
  else
    let v := digits_value ds
    let ul := if 2 ^ 64 ≤ v then 2 ^ 64 - 1 else if neg then (2 ^ 64 - v) % 2 ^ 64 else v
    some (ul % 2 ^ 32)

/-! ## Faults -/

/-- The ways a run stops without returning: a failed `assert`, the bound of a loop of the
embedding, a call of `exit`, and a null pointer handed to a library function that reads
through it. -/
inductive Fault where
  | assert_offset
  | assert_isspace
  | assert_type
  | out_of_fuel
  | exit (status : Nat)
  | null_pointer
  deriving DecidableEq, Repr

deriving instance DecidableEq for Except

/-! ## The option variables and the option table -/

/-- The global option variables with their values. -/
structure Config where
  configFullscreen : Bool
  configKeyA : Nat
  configKeyB : Nat
  configKeyStart : Nat
  configKeyR : Nat
  configKeyZ : Nat
  configKeyCUp : Nat
  configKeyCDown : Nat
  configKeyCLeft : Nat
  configKeyCRight : Nat
  configKeyStickUp : Nat
  configKeyStickDown : Nat
  configKeyStickLeft : Nat
  configKeyStickRight : Nat
  deriving DecidableEq, Repr

/-- The initial values of the option variables (lines 41-55). -/
def defaults : Config where
  configFullscreen := false
  configKeyA := 0x26
  configKeyB := 0x33
  configKeyStart := 0x39
  configKeyR := 0x36
  configKeyZ := 0x25
  configKeyCUp := 0x148
  configKeyCDown := 0x150
  configKeyCLeft := 0x14B
  configKeyCRight := 0x14D
  configKeyStickUp := 0x11
  configKeyStickDown := 0x1F
  configKeyStickLeft := 0x1E
  configKeyStickRight := 0x20

/-- Addresses of the `bool` option variables. -/
inductive BoolVar where
  | configFullscreen
  deriving DecidableEq, Repr

/-- Addresses of the `unsigned int` option variables. -/
inductive UIntVar where
  | configKeyA
  | configKeyB
  | configKeyStart
  | configKeyR
  | configKeyZ
  | configKeyCUp
  | configKeyCDown
  | configKeyCLeft
  | configKeyCRight
  | configKeyStickUp
  | configKeyStickDown
  | configKeyStickLeft
  | configKeyStickRight
  deriving DecidableEq, Repr

/-- Addresses of the `float` option variables: the file declares none. -/
inductive FloatVar where

/-- The type tags of `enum ConfigOptionType`. -/
inductive ConfigOptionType where
  | CONFIG_TYPE_BOOL
  | CONFIG_TYPE_UINT
  | CONFIG_TYPE_FLOAT
  deriving DecidableEq, Repr

/-- The type tag of `struct ConfigOption` together with the member of its union that
the tag selects. -/
inductive ConfigValue where
  | boolValue (p : BoolVar)
  | uintValue (p : UIntVar)
  | floatValue (p : FloatVar)

/-- One entry of the option table, `struct ConfigOption`. -/
structure ConfigOption where
  name : List Char
  value : ConfigValue

/-- The `type` field of an entry. -/
def ConfigOption.type (o : ConfigOption) : ConfigOptionType :=
  match o.value with
  | .boolValue _ => .CONFIG_TYPE_BOOL
  | .uintValue _ => .CONFIG_TYPE_UINT
  | .floatValue _ => .CONFIG_TYPE_FLOAT

/-- Read `*p` for a `bool *`. -/
def Config.getBool (c : Config) : BoolVar → Bool
  | .configFullscreen => c.configFullscreen

/-- Write `*p = b` for a `bool *`. -/
def Config.setBool (c : Config) (p : BoolVar) (b : Bool) : Config :=
  match p with
  | .configFullscreen => { c with configFullscreen := b }

/-- Read `*p` for an `unsigned int *`. -/
def Config.getUInt (c : Config) : UIntVar → Nat
  | .configKeyA => c.configKeyA
  | .configKeyB => c.configKeyB
  | .configKeyStart => c.configKeyStart
  | .configKeyR => c.configKeyR
  | .configKeyZ => c.configKeyZ
  | .configKeyCUp => c.configKeyCUp
  | .configKeyCDown => c.configKeyCDown
  | .configKeyCLeft => c.configKeyCLeft
  | .configKeyCRight => c.configKeyCRight
  | .configKeyStickUp => c.configKeyStickUp
  | .configKeyStickDown => c.configKeyStickDown
  | .configKeyStickLeft => c.configKeyStickLeft
  | .configKeyStickRight => c.configKeyStickRight

/-- Write `*p = n` for an `unsigned int *`. -/
def Config.setUInt (c : Config) (p : UIntVar) (n : Nat) : Config :=
  match p with
  | .configKeyA => { c with configKeyA := n }
  | .configKeyB => { c with configKeyB := n }
  | .configKeyStart => { c with configKeyStart := n }
  | .configKeyR => { c with configKeyR := n }
  | .configKeyZ => { c with configKeyZ := n }
  | .configKeyCUp => { c with configKeyCUp := n }
  | .configKeyCDown => { c with configKeyCDown := n }
  | .configKeyCLeft => { c with configKeyCLeft := n }
  | .configKeyCRight => { c with configKeyCRight := n }
  | .configKeyStickUp => { c with configKeyStickUp := n }
  | .configKeyStickDown => { c with configKeyStickDown := n }
  | .configKeyStickLeft => { c with configKeyStickLeft := n }
  | .configKeyStickRight => { c with configKeyStickRight := n }

/-- The option table `options[]` (lines 58-73). -/
def options : List ConfigOption :=
  [ ⟨"fullscreen".toList, .boolValue .configFullscreen⟩,
    ⟨"key_a".toList, .uintValue .configKeyA⟩,
    ⟨"key_b".toList, .uintValue .configKeyB⟩,
    ⟨"key_start".toList, .uintValue .configKeyStart⟩,
    ⟨"key_r".toList, .uintValue .configKeyR⟩,
    ⟨"key_z".toList, .uintValue .configKeyZ⟩,
    ⟨"key_cup".toList, .uintValue .configKeyCUp⟩,
    ⟨"key_cdown".toList, .uintValue .configKeyCDown⟩,
    ⟨"key_cleft".toList, .uintValue .configKeyCLeft⟩,
    ⟨"key_cright".toList, .uintValue .configKeyCRight⟩,
    ⟨"key_stickup".toList, .uintValue .configKeyStickUp⟩,
    ⟨"key_stickdown".toList, .uintValue .configKeyStickDown⟩,
    ⟨"key_stickleft".toList, .uintValue .configKeyStickLeft⟩,
    ⟨"key_stickright".toList, .uintValue .configKeyStickRight⟩ ]

/-! ## Streams -/

/-- A stream opened for reading: the bytes not read yet and the end-of-file indicator. -/
structure FILE where
  data : List Char
  eof : Bool
  deriving DecidableEq, Repr

/-- A freshly opened stream over the given content. -/
def fopen_r (content : List Char) : FILE :=
  ⟨content, false⟩

/-- The transfer loop of `fgets`: at most `k` bytes are taken, stopping after a newline.
Returns the bytes taken, the bytes left, and whether the end of the stream was hit
while a further byte was wanted. -/
def fgets_take : Nat → List Char → List Char × List Char × Bool
  | 0, data => ([], data, false)
  | _ + 1, [] => ([], [], true)
  | k + 1, c :: data =>
    if c = '\n' then ([c], data, false)
    else
      let r := fgets_take k data
      (c :: r.1, r.2.1, r.2.2)

/-- The conversion of a `size_t` value to the `int` parameter of `fgets`: the low 32 bits,
read in two's complement. -/
def size_t_to_int (v : Nat) : Int :=
  if v % 2 ^ 32 < 2 ^ 31 then ((v % 2 ^ 32 : Nat) : Int)
  else ((v % 2 ^ 32 : Nat) : Int) - 2 ^ 32

/-- The call `fgets(buf, n, file)` with its `int` size: `none` for a `NULL` result (a size
that is not positive, or end of file before any byte was read; the buffer is not written),
otherwise the bytes stored in front of the terminating `NUL`. -/
def fgets (n : Int) (file : FILE) : Option (List Char) × FILE :=
  if n ≤ 0 then (none, file)
  else
    let r := fgets_take (n.toNat - 1) file.data
    if r.1.isEmpty && r.2.2 then (none, ⟨r.2.1, true⟩)
    else (some r.1, ⟨r.2.1, file.eof || r.2.2⟩)

/-- The `while (1)` loop of `read_file_line` (lines 83-105). The buffer holds the bytes
written so far: the first `offset` bytes from earlier rounds, then what `fgets` stores.
`bufferSize` and `offset` are `size_t` (64 bits); their difference, which does not wrap as
`offset` stays below `bufferSize`, is passed to the `int` parameter of `fgets`. -/
def read_file_line_loop :
    Nat → FILE → List Char → Nat → Nat → Except Fault (Option (List Char) × FILE)
  | 0, _, _, _, _ => .error .out_of_fuel
  | fuel + 1, file, buffer, bufferSize, offset =>
    match fgets (size_t_to_int (bufferSize - offset)) file with
    | (none, file) => .ok (none, file)
    | (some chunk, file) =>
      let buffer := buffer.take offset ++ chunk ++ [NUL]
      let offset := strlen buffer
      if offset = 0 then .error .assert_offset
      else if load buffer (offset - 1) = '\n' then .ok (some (buffer.set (offset - 1) NUL), file)
      else if file.eof then .ok (some buffer, file)
      else read_file_line_loop fuel file buffer (bufferSize * 2 % 2 ^ 64) offset

/-- The function `read_file_line`: the buffer returned (`none` for `NULL`) and the stream
afterwards. Every round that does not return has taken a byte, which bounds the rounds. -/
def read_file_line (file : FILE) : Except Fault (Option (List Char) × FILE) :=
  read_file_line_loop (file.data.length + 1) file [] 8 0

/-! ## The tokenizer -/

/-- The loop `while (isspace(*str)) str++`. -/
def skip_whitespace_loop : Nat → List Char → Nat → Nat
  | 0, _, str => str
  | fuel + 1, mem, str =>
    if isspace (load mem str) then skip_whitespace_loop fuel mem (str + 1) else str

/-- The function `skip_whitespace`: the position of the first non-whitespace character.
No byte past the buffer is white space, which bounds the loop. -/
def skip_whitespace (mem : List Char) (str : Nat) : Nat :=
  skip_whitespace_loop (mem.length - str) mem str

/-- The loop `while (!isspace(*str) && *str != 0) str++` of `word_split`. -/
def word_split_loop : Nat → List Char → Nat → Nat
  | 0, _, str => str
  | fuel + 1, mem, str =>
    if !isspace (load mem str) && load mem str != NUL then word_split_loop fuel mem (str + 1)
    else str

/-- The function `word_split`: terminates the word at `str` with a `NUL` and returns the
buffer together with the position of the next word. -/
def word_split (mem : List Char) (str : Nat) : Except Fault (List Char × Nat) :=
  if isspace (load mem str) then .error .assert_isspace
  else
    let str := word_split_loop (mem.length - str) mem str
    if load mem str = NUL then .ok (mem, str)
    else .ok (mem.set str NUL, skip_whitespace (mem.set str NUL) (str + 1))

/-- The loop of `tokenize_string` (lines 142-146); `tokens` holds the entries
`tokens[0..count)` written so far. -/
def tokenize_string_loop :
    Nat → List Char → Nat → Int → Int → List Nat → Except Fault (Int × List Nat × List Char)
  | 0, _, _, _, _, _ => .error .out_of_fuel
  | fuel + 1, mem, str, maxTokens, count, tokens =>
    if load mem str != NUL && count < maxTokens then
      match word_split mem str with
      | .error e => .error e
      | .ok (mem, next) =>
        tokenize_string_loop fuel mem next maxTokens (count + 1) (tokens ++ [str])
    else .ok (count, tokens, mem)

/-- The function `tokenize_string`: the number of tokens, the entries written to the
`tokens` array, and the buffer afterwards. The body runs at most `maxTokens` times. -/
def tokenize_string (mem : List Char) (str : Nat) (maxTokens : Int) :
    Except Fault (Nat × List Nat × List Char) :=
  match tokenize_string_loop (maxTokens.toNat + 1) mem (skip_whitespace mem str) maxTokens 0 [] with
  | .error e => .error e
  | .ok (count, tokens, mem) => .ok (count.toNat, tokens, mem)

/-! ## Loading -/

/-- The lookup loop of lines 203-208: the first entry whose name is `strcmp`-equal. -/
def find_option (name : List Char) : Option ConfigOption :=
  options.find? (fun o => name == o.name)

/-- The `switch` of lines 212-227 for a found option and the value token. -/
def set_option_value (option : ConfigOption) (value : List Char) (cfg : Config) : Config :=
  match option.value with
  | .boolValue p =>
    if value = "true".toList then cfg.setBool p true
    else if value = "false".toList then cfg.setBool p false
    else cfg
  | .uintValue p =>
    match sscanf_u value with
    | some n => cfg.setUInt p n
    | none => cfg
  | .floatValue p => nomatch p

/-- The body of the line loop of `configfile_load` (lines 192-232) for the buffer `line`
returned by `read_file_line`. -/
def configfile_load_line (line : List Char) (cfg : Config) : Except Fault Config :=
  let p := skip_whitespace line 0
  match tokenize_string line p 2 with
  | .error e => .error e
  | .ok (numTokens, tokens, line) =>
    if numTokens != 0 then
      if numTokens == 2 then
        match find_option (cstr line (tokens.getD 0 0)) with
        | none => .ok cfg
        | some option => .ok (set_option_value option (cstr line (tokens.getD 1 0)) cfg)
      else .ok cfg
    else .ok cfg

/-- The line loop of `configfile_load` (lines 191-234). -/
def configfile_load_loop : Nat → FILE → Config → Except Fault Config
  | 0, _, _ => .error .out_of_fuel
  | fuel + 1, file, cfg =>
    match read_file_line file with
    | .error e => .error e
    | .ok (none, _) => .ok cfg
    | .ok (some line, file) =>
      match configfile_load_line line cfg with
      | .error e => .error e
      | .ok cfg => configfile_load_loop fuel file cfg

/-- The part of `configfile_load` after the file was opened (lines 191-236), for a file
with the given content. Every line read takes a byte, which bounds the loop. -/
def configfile_load_file (content : List Char) (cfg : Config) : Except Fault Config :=
  configfile_load_loop (content.length + 1) (fopen_r content) cfg

/-! ## Saving -/

/-- One round of the loop of `configfile_save` (lines 273-287): the `fprintf` output. -/
def configfile_save_option (cfg : Config) (option : ConfigOption) : List Char :=
  match option.value with
  | .boolValue p =>
    option.name ++ ' ' :: (if cfg.getBool p then "true".toList else "false".toList) ++ ['\n']
  | .uintValue p => option.name ++ ' ' :: fprintf_u (cfg.getUInt p) ++ ['\n']
  | .floatValue p => nomatch p

/-- The text `configfile_save` writes to the opened file (lines 272-288). -/
def configfile_save_text (cfg : Config) : List Char :=
  (options.map (configfile_save_option cfg)).flatten

/-! ## The file system and the process around the two entry points -/

/-- A directory path. -/
abbrev Path := List Char

/-- The value "no such file or directory" of `<errno.h>`. -/
def ENOENT : Nat := 2

/-- The value "permission denied" of `<errno.h>`. -/
def EACCES : Nat := 13

/-- The value "bad address" of `<errno.h>`. -/
def EFAULT : Nat := 14

/-- The value "file exists" of `<errno.h>`. -/
def EEXIST : Nat := 17

/-- The value "invalid argument" of `<errno.h>`. -/
def EINVAL : Nat := 22

/-- The two paths the platform resolves: `prefPath` is the per-user directory that
`SDL_GetPrefPath("", "sm64pc")` names and `basePath` what `SDL_GetBasePath()` returns (the
directory of the executable). -/
structure SDL where
  prefPath : Path
  basePath : Path
  deriving DecidableEq, Repr

/-- The state the library calls of `configfile_load` and `configfile_save` read and write:
the directories that exist, the files by directory and name (the first entry for a key is
the file), the directories whose creation is refused, the directories in which no file can
be opened for writing, the working directory of the process, and `errno`. -/
structure Sys where
  dirs : List Path
  files : List ((Path × List Char) × List Char)
  denied : List Path
  readonly : List Path
  cwd : Path
  errno : Nat
  deriving DecidableEq, Repr

/-- The content of the file `name` in the directory `dir`, if there is one. -/
def Sys.read (s : Sys) (dir : Path) (name : List Char) : Option (List Char) :=
  s.files.lookup (dir, name)

/-- The call `SDL_GetPrefPath("", "sm64pc")`. The function creates the directory it names:
it calls `mkdir` on the path, and when that call fails for another reason than `EEXIST` it
returns `NULL`. So after a call that returns the path the directory exists and `errno` holds
the `EEXIST` of the last `mkdir`, which finds the directory in place whether it was there
before or has just been made; after a call that returns `NULL` the directory is absent and
`errno` holds the error of the refused `mkdir`. -/
def SDL_GetPrefPath (sdl : SDL) (s : Sys) : Option Path × Sys :=
  if sdl.prefPath ∈ s.dirs then (some sdl.prefPath, { s with errno := EEXIST })
  else if sdl.prefPath ∈ s.denied then (none, { s with errno := EACCES })
  else (some sdl.prefPath, { s with dirs := sdl.prefPath :: s.dirs, errno := EEXIST })

/-- The call `SDL_GetBasePath()`: the directory of the executable; nothing else changes. -/
def SDL_GetBasePath (sdl : SDL) : Path :=
  sdl.basePath

/-- The call `opendir(path)`: a stream for an existing directory, with `errno` left as it
was; `NULL` and `errno = ENOENT` for a directory that does not exist. A null pointer is not
a path: the behaviour is undefined, and glibc reads through the pointer. -/
def opendir (path : Option Path) (s : Sys) : Except Fault (Option Path × Sys) :=
  match path with
  | none => .error .null_pointer
  | some path =>
    if path ∈ s.dirs then .ok (some path, s) else .ok (none, { s with errno := ENOENT })

/-- The call `closedir(dir)`: nothing to observe for an open stream; for `NULL` the call
fails with `errno = EINVAL` (glibc). -/
def closedir (dir : Option Path) (s : Sys) : Sys :=
  match dir with
  | some _ => s
  | none => { s with errno := EINVAL }

/-- The call `chdir(path)`: the working directory becomes `path` if that directory exists,
with `errno` left as it was; otherwise the call fails with `errno = ENOENT`, and with
`errno = EFAULT` for a null pointer. -/
def chdir (path : Option Path) (s : Sys) : Sys :=
  match path with
  | none => { s with errno := EFAULT }
  | some path => if path ∈ s.dirs then { s with cwd := path } else { s with errno := ENOENT }

/-- The call `mkdir(path, mode)`: fails with `EEXIST` for an existing directory, with
`EACCES` where creation is refused and with `EFAULT` for a null pointer; otherwise the
directory is created and `errno` is left as it was. -/
def mkdir (path : Option Path) (s : Sys) : Sys :=
  match path with
  | none => { s with errno := EFAULT }
  | some path =>
    if path ∈ s.dirs then { s with errno := EEXIST }
    else if path ∈ s.denied then { s with errno := EACCES }
    else { s with dirs := path :: s.dirs }

/-- The call `fopen(filename, "r")`, the name resolved in the working directory: the
content of the file, or `NULL` and `errno = ENOENT`. -/
def fopen_read (filename : List Char) (s : Sys) : Option (List Char) × Sys :=
  match s.read s.cwd filename with
  | some content => (some content, s)
  | none => (none, { s with errno := ENOENT })

/-- The call `fopen(filename, "w")`, the name resolved in the working directory: the file
is created or truncated and its key returned, or `NULL` and `errno = EACCES`. -/
def fopen_write (filename : List Char) (s : Sys) : Option (Path × List Char) × Sys :=
  if s.cwd ∈ s.dirs ∧ s.cwd ∉ s.readonly then
    (some (s.cwd, filename), { s with files := ((s.cwd, filename), []) :: s.files })
  else (none, { s with errno := EACCES })

/-- The file after everything printed to the stream was written and the stream closed. -/
def fclose_written (file : Path × List Char) (text : List Char) (s : Sys) : Sys :=
  { s with files := (file, text) :: s.files }

/-- Lines 261-290 of `configfile_save`, after the directory check; line 262 calls
`SDL_GetPrefPath` for the argument of `chdir`. -/
def configfile_save_write (sdl : SDL) (filename : List Char) (cur_dir : Path)
    (conf_dir : Option Path) (s : Sys) (cfg : Config) : Except Fault (Sys × Config) :=
  let s := closedir conf_dir s
  let p := SDL_GetPrefPath sdl s
  let s := chdir p.1 p.2
  let r := fopen_write filename s
  let s := chdir (some cur_dir) r.2
  match r.1 with
  | none => .ok (s, cfg)
  | some file => .ok (fclose_written file (configfile_save_text cfg) s, cfg)

/-- The function `configfile_save`: the state of the process and the option values after
the call, or the way the process stops. `SDL_GetPrefPath` is called for the message of line
245 and again for each of the calls of lines 248, 251, 252 and 262. -/
def configfile_save (sdl : SDL) (filename : List Char) (s : Sys) (cfg : Config) :
    Except Fault (Sys × Config) :=
  let p := SDL_GetPrefPath sdl s
  let cur_dir := SDL_GetBasePath sdl
  let p := SDL_GetPrefPath sdl p.2
  match opendir p.1 p.2 with
  | .error e => .error e
  | .ok r =>
    if r.2.errno = ENOENT then
      let p := SDL_GetPrefPath sdl r.2
      let s := mkdir p.1 p.2
      let p := SDL_GetPrefPath sdl s
      match opendir p.1 p.2 with
      | .error e => .error e
      | .ok r =>
        if r.2.errno = ENOENT then .error (.exit ENOENT)
        else configfile_save_write sdl filename cur_dir r.1 r.2 cfg
    else configfile_save_write sdl filename cur_dir r.1 r.2 cfg

/-- Lines 188-237 of `configfile_load`, once the file is open with the given content. -/
def configfile_load_read (cur_dir : Path) (conf_dir : Option Path) (content : List Char)
    (s : Sys) (cfg : Config) : Except Fault (Sys × Config) :=
  let s := closedir conf_dir s
  match configfile_load_file content cfg with
  | .error e => .error e
  | .ok cfg => .ok (chdir (some cur_dir) s, cfg)

/-- The function `configfile_load`: the state of the process and the option values after
the call, or the way the process stops. `SDL_GetPrefPath` is called for the `opendir` of
line 158 and again for the message of line 163, the `chdir` of line 175 and the message of
line 185. -/
def configfile_load (sdl : SDL) (filename : List Char) (s : Sys) (cfg : Config) :
    Except Fault (Sys × Config) :=
  let p := SDL_GetPrefPath sdl s
  match opendir p.1 p.2 with
  | .error e => .error e
  | .ok r =>
    let cur_dir := SDL_GetBasePath sdl
    if r.2.errno = ENOENT then
      let p := SDL_GetPrefPath sdl r.2
      match fopen_read filename p.2 with
      | (none, s) => configfile_save sdl filename (closedir r.1 s) cfg
      | (some content, s) => configfile_load_read cur_dir r.1 content s cfg
    else
      let p := SDL_GetPrefPath sdl r.2
      match fopen_read filename (chdir p.1 p.2) with
      | (none, s) =>
        configfile_save sdl filename (closedir r.1 (chdir (some cur_dir) s)) cfg
      | (some content, s) =>
        let p := SDL_GetPrefPath sdl s
        configfile_load_read cur_dir r.1 content p.2 cfg

/-! ## Vocabulary of the specification -/

/-- The maximal runs of non-whitespace characters of a line, in order. -/
def words (line : List Char) : List (List Char) :=
  (line.splitOnP isspace).filter (fun w => !w.isEmpty)

/-- The file made of the given lines, each terminated by a newline. -/
def unlines (lines : List (List Char)) : List Char :=
  (lines.map (fun l => l ++ ['\n'])).flatten

/-- What a line whose first tokens are `toks` does to the option values: with fewer than
two tokens nothing, with an unknown name nothing, otherwise the value is decoded. -/
def apply_tokens (toks : List (List Char)) (cfg : Config) : Config :=
  match toks with
  | [name, value] =>
    match find_option name with
    | none => cfg
    | some option => set_option_value option value cfg
  | _ => cfg

/-! ## Lemmas on the embedding -/

theorem isspace_NUL : isspace NUL = false := by decide

theorem load_append_right (pre l : List Char) (i : Nat) :
    load (pre ++ l) (pre.length + i) = load l i := by
  simp [load, List.getD_eq_getElem?_getD, List.getElem?_append_right]

theorem load_append_left (pre l : List Char) (i : Nat) (h : i < pre.length) :
    load (pre ++ l) i = load pre i := by
  simp [load, List.getD_eq_getElem?_getD, List.getElem?_append_left h]

theorem load_of_mem (l : List Char) (i : Nat) (h : i < l.length) : load l i ∈ l := by
  simp [load, List.getD_eq_getElem?_getD, List.getElem?_eq_getElem h]

theorem skip_whitespace_loop_eq (k : Nat) : ∀ (fuel : Nat) (mem : List Char) (str : Nat),
    k ≤ fuel → (∀ i, i < k → isspace (load mem (str + i)) = true) →
    isspace (load mem (str + k)) = false →
    skip_whitespace_loop fuel mem str = str + k := by
  induction k with
  | zero =>
    intro fuel mem str _ _ hstop
    cases fuel with
    | zero => rfl
    | succ f => simp [skip_whitespace_loop, Nat.add_zero] at hstop ⊢; simp [hstop]
  | succ k ih =>
    intro fuel mem str hk hsp hstop
    cases fuel with
    | zero => omega
    | succ f =>
      have h0 : isspace (load mem str) = true := by simpa using hsp 0 (by omega)
      rw [skip_whitespace_loop, if_pos h0, ih f mem (str + 1) (by omega)]
      · omega
      · intro i hi
        have := hsp (i + 1) (by omega)
        rwa [show str + 1 + i = str + (i + 1) by omega]
      · rwa [show str + 1 + k = str + (k + 1) by omega]

theorem skip_whitespace_append (pre ws rest : List Char)
    (hws : ∀ c ∈ ws, isspace c = true) (hrest : isspace (load rest 0) = false) :
    skip_whitespace (pre ++ ws ++ rest) pre.length = pre.length + ws.length := by
  unfold skip_whitespace
  apply skip_whitespace_loop_eq
  · simp
  · intro i hi
    rw [List.append_assoc, load_append_right, load_append_left _ _ _ hi]
    exact hws _ (load_of_mem _ _ hi)
  · rw [List.append_assoc, load_append_right]
    have := load_append_right ws rest 0
    simp only [Nat.add_zero] at this
    rw [this]; exact hrest


theorem word_split_loop_eq (k : Nat) : ∀ (fuel : Nat) (mem : List Char) (str : Nat),
    k ≤ fuel →
    (∀ i, i < k → isspace (load mem (str + i)) = false ∧ load mem (str + i) ≠ NUL) →
    (isspace (load mem (str + k)) = true ∨ load mem (str + k) = NUL) →
    word_split_loop fuel mem str = str + k := by
  induction k with
  | zero =>
    intro fuel mem str _ _ hstop
    cases fuel with
    | zero => rfl
    | succ f =>
      rw [Nat.add_zero] at hstop
      rcases hstop with h | h <;> simp [word_split_loop, h]
  | succ k ih =>
    intro fuel mem str hk hw hstop
    cases fuel with
    | zero => omega
    | succ f =>
      have h0 := hw 0 (by omega)
      rw [Nat.add_zero] at h0
      have hc : (!isspace (load mem str) && load mem str != NUL) = true := by
        simp [h0.1, h0.2]
      rw [word_split_loop, if_pos hc, ih f mem (str + 1) (by omega)]
      · omega
      · intro i hi
        have := hw (i + 1) (by omega)
        rwa [show str + 1 + i = str + (i + 1) by omega]
      · rwa [show str + 1 + k = str + (k + 1) by omega]

theorem load_zero_cons (c : Char) (l : List Char) : load (c :: l) 0 = c := rfl

theorem load_mid (pre rest : List Char) : load (pre ++ rest) pre.length = load rest 0 := by
  have := load_append_right pre rest 0
  simpa using this

theorem word_split_loop_append (pre w rest : List Char)
    (hw : ∀ c ∈ w, isspace c = false ∧ c ≠ NUL)
    (hrest : isspace (load rest 0) = true ∨ load rest 0 = NUL) :
    word_split_loop ((pre ++ w ++ rest).length - pre.length) (pre ++ w ++ rest) pre.length
      = pre.length + w.length := by
  apply word_split_loop_eq
  · simp
  · intro i hi
    rw [List.append_assoc, load_append_right, load_append_left _ _ _ hi]
    exact hw _ (load_of_mem _ _ hi)
  · rw [List.append_assoc, load_append_right, load_mid]
    exact hrest

theorem set_mid (pre rest : List Char) (c d : Char) :
    (pre ++ c :: rest).set pre.length d = pre ++ d :: rest := by
  induction pre with
  | nil => rfl
  | cons x xs ih => simp [List.set, ih]

/-- The call `word_split` at a word that ends the string. -/
theorem word_split_last (pre w junk : List Char) (hne : w ≠ [])
    (hw : ∀ c ∈ w, isspace c = false ∧ c ≠ NUL) :
    word_split (pre ++ w ++ NUL :: junk) pre.length
      = .ok (pre ++ w ++ NUL :: junk, pre.length + w.length) := by
  obtain ⟨c, w1, rfl⟩ := List.exists_cons_of_ne_nil hne
  have h0 : isspace (load (pre ++ c :: w1 ++ NUL :: junk) pre.length) = false := by
    rw [List.append_assoc, load_mid]; exact (hw c (by simp)).1
  unfold word_split
  rw [if_neg (by rw [h0]; exact Bool.false_ne_true)]
  simp only []
  rw [word_split_loop_append pre (c :: w1) (NUL :: junk) hw (Or.inr rfl)]
  have h1 : load (pre ++ c :: w1 ++ NUL :: junk) (pre.length + (c :: w1).length) = NUL := by
    have := load_mid (pre ++ c :: w1) (NUL :: junk)
    simpa [List.append_assoc] using this
  rw [if_pos h1]

/-- The call `word_split` at a word that is followed by white space. -/
theorem word_split_more (pre w ws rest : List Char) (s : Char) (hne : w ≠ [])
    (hw : ∀ c ∈ w, isspace c = false ∧ c ≠ NUL) (hs : isspace s = true)
    (hws : ∀ c ∈ ws, isspace c = true) (hrest : isspace (load rest 0) = false) :
    word_split (pre ++ w ++ s :: (ws ++ rest)) pre.length
      = .ok (pre ++ w ++ NUL :: (ws ++ rest), pre.length + w.length + 1 + ws.length) := by
  obtain ⟨c, w1, rfl⟩ := List.exists_cons_of_ne_nil hne
  have h0 : isspace (load (pre ++ c :: w1 ++ s :: (ws ++ rest)) pre.length) = false := by
    rw [List.append_assoc, load_mid]; exact (hw c (by simp)).1
  unfold word_split
  rw [if_neg (by rw [h0]; exact Bool.false_ne_true)]
  simp only []
  rw [word_split_loop_append pre (c :: w1) (s :: (ws ++ rest)) hw (Or.inl hs)]
  have hlen : pre.length + (c :: w1).length = (pre ++ c :: w1).length := by simp
  have h1 : load (pre ++ c :: w1 ++ s :: (ws ++ rest)) (pre.length + (c :: w1).length) = s := by
    rw [hlen, load_mid]; rfl
  have hsN : s ≠ NUL := by
    intro h; rw [h, isspace_NUL] at hs; exact absurd hs (by simp)
  rw [if_neg (by rw [h1]; exact hsN), hlen, set_mid]
  have hskip := skip_whitespace_append (pre ++ c :: w1 ++ [NUL]) ws rest hws hrest
  have e1 : pre ++ c :: w1 ++ [NUL] ++ ws ++ rest = pre ++ c :: w1 ++ NUL :: (ws ++ rest) := by
    simp
  have e2 : (pre ++ c :: w1 ++ [NUL]).length = (pre ++ c :: w1).length + 1 := by
    simp only [List.length_append, List.length_cons, List.length_nil]
  rw [e1, e2] at hskip
  rw [hskip]


/-! ### Words -/

theorem words_nil : words [] = [] := by
  simp [words, List.splitOnP_nil]

theorem words_cons_space (c : Char) (l : List Char) (h : isspace c = true) :
    words (c :: l) = words l := by
  simp [words, List.splitOnP_cons, h]

theorem words_spaces (ws l : List Char) (h : ∀ c ∈ ws, isspace c = true) :
    words (ws ++ l) = words l := by
  induction ws with
  | nil => rfl
  | cons c cs ih =>
    rw [List.cons_append, words_cons_space _ _ (h c (by simp))]
    exact ih (fun d hd => h d (by simp [hd]))

theorem words_single (w : List Char) (hne : w ≠ []) (hw : ∀ c ∈ w, isspace c = false) :
    words w = [w] := by
  have : w.splitOnP isspace = [w] := List.splitOnP_eq_single _ _ (by simpa using hw)
  simp [words, this, hne]

theorem words_word (w rest : List Char) (s : Char) (hne : w ≠ [])
    (hw : ∀ c ∈ w, isspace c = false) (hs : isspace s = true) :
    words (w ++ s :: rest) = w :: words rest := by
  have : (w ++ s :: rest).splitOnP isspace = w :: rest.splitOnP isspace :=
    List.splitOnP_first _ _ (by simpa using hw) s hs rest
  simp [words, this, hne]

/-- A string that starts with a non-whitespace character is a word, alone or followed by
white space and a rest that does not start with white space. -/
theorem word_decomposition (l : List Char) (hne : l ≠ []) (h0 : isspace (load l 0) = false) :
    ∃ w, w ≠ [] ∧ (∀ c ∈ w, isspace c = false) ∧
      (l = w ∨ ∃ s ws rest, l = w ++ s :: (ws ++ rest) ∧ isspace s = true ∧
        (∀ c ∈ ws, isspace c = true) ∧ isspace (load rest 0) = false) := by
  refine ⟨l.takeWhile (fun c => !isspace c), ?_, ?_, ?_⟩
  · obtain ⟨c, t, rfl⟩ := List.exists_cons_of_ne_nil hne
    have : isspace c = false := h0
    simp [List.takeWhile, this]
  · intro c hc
    have := List.mem_takeWhile_imp hc
    simpa using this
  · rcases hr : l.dropWhile (fun c => !isspace c) with _ | ⟨s, r2⟩
    · left
      have := List.takeWhile_append_dropWhile (fun c => !isspace c) l
      rw [hr, List.append_nil] at this
      exact this.symm
    · right
      refine ⟨s, r2.takeWhile isspace, r2.dropWhile isspace, ?_, ?_, ?_, ?_⟩
      · rw [List.takeWhile_append_dropWhile, ← hr, List.takeWhile_append_dropWhile]
      · have := List.head_dropWhile_not (fun c => !isspace c) l (by rw [hr]; simp)
        simpa [hr] using this
      · intro c hc
        exact List.mem_takeWhile_imp hc
      · rcases hd : r2.dropWhile isspace with _ | ⟨d, r3⟩
        · exact isspace_NUL
        · have := List.head_dropWhile_not isspace r2 (by rw [hd]; simp)
          simpa [hd, load] using this


/-! ### The tokenizer -/

theorem takeWhile_ne_NUL (w rest : List Char) (hw : NUL ∉ w) :
    (w ++ NUL :: rest).takeWhile (fun c => c != NUL) = w := by
  induction w with
  | nil => simp [List.takeWhile]
  | cons c cs ih =>
    have hc : c ≠ NUL := fun h => hw (by simp [h])
    have hcs : NUL ∉ cs := fun h => hw (by simp [h])
    simp [List.takeWhile_cons, hc, ih hcs]

theorem cstr_mid (pre w rest : List Char) (hw : NUL ∉ w) :
    cstr (pre ++ w ++ NUL :: rest) pre.length = w := by
  unfold cstr
  rw [List.append_assoc, List.drop_left]
  exact takeWhile_ne_NUL w rest hw

theorem load_zero_ne_NUL (l : List Char) (hne : l ≠ []) (h : NUL ∉ l) : load l 0 ≠ NUL := by
  obtain ⟨c, t, rfl⟩ := List.exists_cons_of_ne_nil hne
  intro hc
  exact h (by rw [load_zero_cons] at hc; simp [hc])

/-- The loop of `tokenize_string` started at a position that is not white space, with the
rest of the string free of `NUL`: the tokens written from there on are the leading words of
the rest, as many as the bound allows, and the bytes in front of the position stay. -/
theorem tokenize_string_loop_spec : ∀ (fuel : Nat) (pre suffix junk : List Char)
    (maxTokens count : Int) (tokens : List Nat),
    NUL ∉ suffix → isspace (load suffix 0) = false → (maxTokens - count).toNat < fuel →
    ∃ suffix' newtoks,
      tokenize_string_loop fuel (pre ++ suffix ++ NUL :: junk) pre.length maxTokens count tokens
        = .ok (count + newtoks.length, tokens ++ newtoks, pre ++ suffix' ++ NUL :: junk) ∧
      suffix'.length = suffix.length ∧
      newtoks.map (cstr (pre ++ suffix' ++ NUL :: junk))
        = (words suffix).take (maxTokens - count).toNat := by
  intro fuel
  induction fuel with
  | zero => intro _ _ _ _ _ _ _ _ h; omega
  | succ f ih =>
    intro pre suffix junk maxTokens count tokens hN h0 hfuel
    rw [tokenize_string_loop]
    by_cases hnil : suffix = []
    · subst hnil
      have hz : load (pre ++ [] ++ NUL :: junk) pre.length = NUL := by
        rw [List.append_nil, load_mid]; rfl
      rw [if_neg (by rw [hz]; simp)]
      exact ⟨[], [], by simp, rfl, by simp [words_nil]⟩
    · have hld : load (pre ++ suffix ++ NUL :: junk) pre.length ≠ NUL := by
        rw [List.append_assoc, load_mid]
        obtain ⟨c, t, rfl⟩ := List.exists_cons_of_ne_nil hnil
        exact load_zero_ne_NUL (c :: t) (by simp) hN
      by_cases hcount : count < maxTokens
      · have hcond : (load (pre ++ suffix ++ NUL :: junk) pre.length != NUL
            && decide (count < maxTokens)) = true := by
          rw [Bool.and_eq_true]; exact ⟨bne_iff_ne.mpr hld, decide_eq_true hcount⟩
        rw [if_pos hcond]
        have htake : (maxTokens - count).toNat = (maxTokens - (count + 1)).toNat + 1 := by omega
        obtain ⟨w, hwne, hw, hcase⟩ := word_decomposition suffix hnil h0
        rcases hcase with hsw | ⟨s, ws, rest, rfl, hs, hws, hrest⟩
        · -- the word ends the string
          subst hsw
          have hw2 : ∀ c ∈ suffix, isspace c = false ∧ c ≠ NUL :=
            fun c hc => ⟨hw c hc, fun h => hN (h ▸ hc)⟩
          rw [word_split_last pre suffix junk hwne hw2]
          simp only []
          obtain ⟨s1, nt, hrun, hlen, hmap⟩ := ih (pre ++ suffix) [] junk maxTokens (count + 1)
            (tokens ++ [pre.length]) (by simp) isspace_NUL (by omega)
          have hs1 : s1 = [] := List.length_eq_zero.mp hlen
          subst hs1
          have hnt : nt = [] := by simpa [words_nil] using hmap
          subst hnt
          rw [List.append_nil, List.length_append] at hrun
          rw [hrun]
          refine ⟨suffix, [pre.length], ?_, rfl, ?_⟩
          · simp
          · rw [words_single suffix hwne hw, htake]
            have := cstr_mid pre suffix junk hN
            simp only [List.take_succ_cons, List.take_nil, List.map_cons, List.map_nil, this]
        · -- the word is followed by white space
          have hNw : NUL ∉ w := fun h => hN (by simp [h])
          have hNrest : NUL ∉ rest := fun h => hN (by simp [h])
          have hw2 : ∀ c ∈ w, isspace c = false ∧ c ≠ NUL :=
            fun c hc => ⟨hw c hc, fun h => hNw (h ▸ hc)⟩
          have hrest2 : isspace (load (rest ++ NUL :: junk) 0) = false := by
            cases rest with
            | nil => exact isspace_NUL
            | cons d r => exact hrest
          have e1 : pre ++ (w ++ s :: (ws ++ rest)) ++ NUL :: junk
              = pre ++ w ++ s :: (ws ++ (rest ++ NUL :: junk)) := by simp
          rw [e1, word_split_more pre w ws (rest ++ NUL :: junk) s hwne hw2 hs hws hrest2]
          simp only []
          have e2 : pre ++ w ++ NUL :: (ws ++ (rest ++ NUL :: junk))
              = (pre ++ w ++ NUL :: ws) ++ rest ++ NUL :: junk := by simp
          have e3 : pre.length + w.length + 1 + ws.length = (pre ++ w ++ NUL :: ws).length := by
            simp only [List.length_append, List.length_cons]; omega
          rw [e2, e3]
          obtain ⟨s1, nt, hrun, hlen, hmap⟩ := ih (pre ++ w ++ NUL :: ws) rest junk maxTokens
            (count + 1) (tokens ++ [pre.length]) hNrest hrest (by omega)
          rw [hrun]
          refine ⟨w ++ NUL :: (ws ++ s1), pre.length :: nt, ?_, ?_, ?_⟩
          · have e4 : pre ++ (w ++ NUL :: (ws ++ s1)) ++ NUL :: junk
                = pre ++ w ++ NUL :: ws ++ s1 ++ NUL :: junk := by simp
            rw [e4]
            simp only [List.length_cons, List.append_assoc, List.singleton_append, Nat.cast_add,
              Nat.cast_one]
            congr 2
            omega
          · simp only [List.length_append, List.length_cons, hlen]
          · have e4 : pre ++ (w ++ NUL :: (ws ++ s1)) ++ NUL :: junk
                = pre ++ w ++ NUL :: ws ++ s1 ++ NUL :: junk := by simp
            have e5 : pre ++ (w ++ NUL :: (ws ++ s1)) ++ NUL :: junk
                = pre ++ w ++ NUL :: (ws ++ s1 ++ NUL :: junk) := by simp
            rw [words_word w (ws ++ rest) s hwne hw hs, words_spaces ws rest hws, htake,
              List.take_succ_cons, List.map_cons, ← hmap, ← e4]
            congr 1
            rw [e5]
            exact cstr_mid pre w _ hNw
      · have hcond : ¬ (load (pre ++ suffix ++ NUL :: junk) pre.length != NUL
            && decide (count < maxTokens)) = true := by
          rw [Bool.and_eq_true]; exact fun h => hcount (of_decide_eq_true h.2)
        rw [if_neg hcond]
        refine ⟨suffix, [], by simp, rfl, ?_⟩
        have : (maxTokens - count).toNat = 0 := by omega
        simp [this]


/-- A string is its leading white space followed by a rest that does not start with white
space. -/
theorem space_decomposition (l : List Char) :
    ∃ ws rest, l = ws ++ rest ∧ (∀ c ∈ ws, isspace c = true) ∧
      isspace (load rest 0) = false := by
  refine ⟨l.takeWhile isspace, l.dropWhile isspace,
    (List.takeWhile_append_dropWhile isspace l).symm, fun c hc => List.mem_takeWhile_imp hc, ?_⟩
  rcases hd : l.dropWhile isspace with _ | ⟨d, r⟩
  · exact isspace_NUL
  · have := List.head_dropWhile_not isspace l (by rw [hd]; simp)
    simpa [hd, load] using this

theorem load_zero_append (rest junk : List Char) (h : isspace (load rest 0) = false) :
    isspace (load (rest ++ NUL :: junk) 0) = false := by
  cases rest with
  | nil => exact isspace_NUL
  | cons d r => exact h

/-- The function `tokenize_string` on a string free of `NUL`: it returns, and the tokens are
the leading words of the string from `str` on, at most `maxTokens` of them. -/
theorem tokenize_string_spec (pre line junk : List Char) (maxTokens : Int) (hN : NUL ∉ line) :
    ∃ toks mem, tokenize_string (pre ++ line ++ NUL :: junk) pre.length maxTokens
        = .ok (toks.length, toks, mem) ∧
      toks.map (cstr mem) = (words line).take maxTokens.toNat := by
  obtain ⟨ws, rest, rfl, hws, hrest⟩ := space_decomposition line
  have hNrest : NUL ∉ rest := fun h => hN (by simp [h])
  have hskip := skip_whitespace_append pre ws (rest ++ NUL :: junk) hws
    (load_zero_append rest junk hrest)
  have e1 : pre ++ (ws ++ rest) ++ NUL :: junk = pre ++ ws ++ (rest ++ NUL :: junk) := by simp
  have e2 : pre ++ ws ++ (rest ++ NUL :: junk) = (pre ++ ws) ++ rest ++ NUL :: junk := by simp
  have e3 : pre.length + ws.length = (pre ++ ws).length := by simp
  obtain ⟨s1, nt, hrun, _, hmap⟩ := tokenize_string_loop_spec (maxTokens.toNat + 1) (pre ++ ws)
    rest junk maxTokens 0 [] hNrest hrest (by omega)
  unfold tokenize_string
  rw [e1, hskip, e2, e3, hrun]
  refine ⟨nt, pre ++ ws ++ s1 ++ NUL :: junk, ?_, ?_⟩
  · simp
  · rw [words_spaces ws rest hws, hmap]; simp

/-- The body of the line loop on a line free of `NUL`: it returns, and its effect on the
option values is that of the first two words of the line. -/
theorem configfile_load_line_spec (l junk : List Char) (cfg : Config) (hN : NUL ∉ l) :
    configfile_load_line (l ++ NUL :: junk) cfg = .ok (apply_tokens ((words l).take 2) cfg) := by
  obtain ⟨ws, rest, rfl, hws, hrest⟩ := space_decomposition l
  have hNrest : NUL ∉ rest := fun h => hN (by simp [h])
  have hskip := skip_whitespace_append [] ws (rest ++ NUL :: junk) hws
    (load_zero_append rest junk hrest)
  rw [List.length_nil] at hskip
  obtain ⟨toks, mem, hrun, hmap⟩ := tokenize_string_spec ws rest junk 2 hNrest
  have e1 : ws ++ rest ++ NUL :: junk = [] ++ ws ++ (rest ++ NUL :: junk) := by simp
  unfold configfile_load_line
  simp only []
  rw [e1, hskip]
  have e2 : [] ++ ws ++ (rest ++ NUL :: junk) = ws ++ rest ++ NUL :: junk := by simp
  rw [e2, Nat.zero_add, hrun, words_spaces ws rest hws]
  simp only []
  have h2 : (2 : Int).toNat = 2 := rfl
  rw [h2] at hmap
  rw [← hmap]
  match toks, hmap with
  | [], _ => rfl
  | [a], _ => rfl
  | [a, b], _ =>
    simp only [apply_tokens, List.map_cons, List.map_nil]
    show (match find_option (cstr mem a) with
      | none => Except.ok cfg
      | some option => Except.ok (set_option_value option (cstr mem b) cfg)) = _
    cases find_option (cstr mem a) <;> rfl
  | a :: b :: c :: t, hm =>
    have := congrArg List.length hm
    simp at this
    omega


/-! ### Reading lines -/

theorem fgets_take_line (k : Nat) : ∀ (l rest : List Char), '\n' ∉ l →
    fgets_take k (l ++ '\n' :: rest)
      = if l.length < k then (l ++ ['\n'], rest, false)
        else (l.take k, l.drop k ++ '\n' :: rest, false) := by
  induction k with
  | zero => intro l rest _; simp [fgets_take]
  | succ k ih =>
    intro l rest hl
    cases l with
    | nil => simp [fgets_take]
    | cons c t =>
      have hc : c ≠ '\n' := fun h => hl (by simp [h])
      have ht : '\n' ∉ t := fun h => hl (by simp [h])
      rw [List.cons_append, fgets_take, if_neg hc]
      simp only []
      rw [ih t rest ht]
      by_cases h : t.length < k <;> simp [h]

theorem size_t_to_int_small (v : Nat) (h : v < 2 ^ 31) : size_t_to_int v = (v : Int) := by
  unfold size_t_to_int
  have hm : v % 2 ^ 32 = v := Nat.mod_eq_of_lt (by omega)
  rw [hm, if_pos h]

theorem size_t_to_int_neg (v : Nat) (h1 : 2 ^ 31 ≤ v) (h2 : v < 2 ^ 32) :
    size_t_to_int v ≤ 0 := by
  unfold size_t_to_int
  have hm : v % 2 ^ 32 = v := Nat.mod_eq_of_lt h2
  rw [hm, if_neg (by omega)]
  omega

theorem fgets_nonpos (n : Int) (file : FILE) (h : n ≤ 0) : fgets n file = (none, file) := by
  unfold fgets
  rw [if_pos h]

theorem fgets_line_short (n : Nat) (l rest : List Char) (hl : '\n' ∉ l) (hn : l.length + 1 < n) :
    fgets (n : Int) ⟨l ++ '\n' :: rest, false⟩ = (some (l ++ ['\n']), ⟨rest, false⟩) := by
  unfold fgets
  have hpos : ¬ ((n : Int) ≤ 0) := by omega
  have h : l.length < n - 1 := by omega
  rw [if_neg hpos, Int.toNat_ofNat]
  simp [fgets_take_line (n - 1) l rest hl, h]

theorem fgets_line_long (n : Nat) (l rest : List Char) (hl : '\n' ∉ l) (h2 : 2 ≤ n)
    (hn : n ≤ l.length + 1) :
    fgets (n : Int) ⟨l ++ '\n' :: rest, false⟩
      = (some (l.take (n - 1)), ⟨l.drop (n - 1) ++ '\n' :: rest, false⟩) := by
  unfold fgets
  have hpos : ¬ ((n : Int) ≤ 0) := by omega
  have h : ¬ l.length < n - 1 := by omega
  have hne : l.take (n - 1) ≠ [] := by
    intro h
    have := congrArg List.length h
    rw [List.length_take, List.length_nil] at this
    omega
  rw [if_neg hpos, Int.toNat_ofNat]
  simp [fgets_take_line (n - 1) l rest hl, h, hne]

theorem strlen_eq (s rest : List Char) (hs : NUL ∉ s) : strlen (s ++ NUL :: rest) = s.length := by
  unfold strlen cstr
  rw [List.drop_zero, takeWhile_ne_NUL s rest hs]

theorem load_last (s rest : List Char) (c : Char) :
    load (s ++ c :: rest) ((s ++ [c]).length - 1) = c := by
  have : (s ++ [c]).length - 1 = s.length := by simp
  rw [this, load_mid]; rfl

theorem set_last (s rest : List Char) (c d : Char) :
    (s ++ c :: rest).set ((s ++ [c]).length - 1) d = s ++ d :: rest := by
  have : (s ++ [c]).length - 1 = s.length := by simp
  rw [this, set_mid]

theorem NUL_ne_newline : NUL ≠ '\n' := by decide

/-- One round of the loop of `read_file_line` that reads no newline: the buffer is filled,
doubled, and the loop goes on behind the bytes read. -/
theorem read_file_line_loop_round (fuel : Nat) (l acc tail rest : List Char) (bs : Nat)
    (hacc : NUL ∉ acc) (hlN : NUL ∉ l) (hl : '\n' ∉ l) (hbs : acc.length + 2 ≤ bs)
    (hfit : bs - acc.length < 2 ^ 31) (hlong : bs - acc.length ≤ l.length + 1)
    (hsz : bs < 2 ^ 63) :
    read_file_line_loop (fuel + 1) ⟨l ++ '\n' :: rest, false⟩ (acc ++ tail) bs acc.length
      = read_file_line_loop fuel ⟨l.drop (bs - acc.length - 1) ++ '\n' :: rest, false⟩
          (acc ++ l.take (bs - acc.length - 1) ++ [NUL]) (bs * 2)
          (acc ++ l.take (bs - acc.length - 1)).length := by
  rw [read_file_line_loop, size_t_to_int_small _ hfit,
    fgets_line_long _ l rest hl (by omega) hlong]
  simp only [List.take_left]
  have hNt : NUL ∉ l.take (bs - acc.length - 1) := fun h => hlN (List.mem_of_mem_take h)
  have hN : NUL ∉ acc ++ l.take (bs - acc.length - 1) := by
    simp only [List.mem_append, not_or]; exact ⟨hacc, hNt⟩
  rw [strlen_eq _ _ hN]
  have hlen : (acc ++ l.take (bs - acc.length - 1)).length = bs - 1 := by
    simp only [List.length_append, List.length_take]; omega
  have hpos : (acc ++ l.take (bs - acc.length - 1)).length ≠ 0 := by omega
  rw [if_neg hpos]
  have hlast : load (acc ++ l.take (bs - acc.length - 1) ++ [NUL])
      ((acc ++ l.take (bs - acc.length - 1)).length - 1) ≠ '\n' := by
    have htl : (l.take (bs - acc.length - 1)).length = bs - acc.length - 1 := by
      rw [List.length_take]; omega
    have hidx : (acc ++ l.take (bs - acc.length - 1)).length - 1
        = acc.length + ((l.take (bs - acc.length - 1)).length - 1) := by
      rw [List.length_append]; omega
    rw [List.append_assoc, hidx, load_append_right, load_append_left _ _ _ (by omega)]
    intro h
    have hm := load_of_mem (l.take (bs - acc.length - 1))
      ((l.take (bs - acc.length - 1)).length - 1) (by omega)
    rw [h] at hm
    exact hl (List.mem_of_mem_take hm)
  have hmod : bs * 2 % 2 ^ 64 = bs * 2 := Nat.mod_eq_of_lt (by omega)
  rw [if_neg hlast, if_neg (by simp), hmod]

/-- The loop of `read_file_line` in front of a line that is terminated by a newline, free of
`NUL` and, with the bytes gathered so far, shorter than `2^31 - 1` bytes: it returns the
bytes gathered so far followed by the line, the newline replaced by `NUL`, and leaves the
stream right after the newline. -/
theorem read_file_line_loop_line : ∀ (fuel : Nat) (l acc tail rest : List Char) (bs : Nat),
    NUL ∉ acc → NUL ∉ l → '\n' ∉ l → acc.length + 2 ≤ bs → bs % 2 = 0 →
    bs - acc.length < 2 ^ 31 → acc.length + l.length + 2 ≤ 2 ^ 31 → l.length < fuel →
    read_file_line_loop fuel ⟨l ++ '\n' :: rest, false⟩ (acc ++ tail) bs acc.length
      = .ok (some (acc ++ l ++ [NUL, NUL]), ⟨rest, false⟩) := by
  intro fuel
  induction fuel with
  | zero => intro _ _ _ _ _ _ _ _ _ _ _ _ h; omega
  | succ f ih =>
    intro l acc tail rest bs hacc hlN hl hbs heven hfit htot hfuel
    by_cases hshort : l.length + 1 < bs - acc.length
    · rw [read_file_line_loop, size_t_to_int_small _ hfit, fgets_line_short _ l rest hl hshort]
      simp only [List.take_left]
      have hN : NUL ∉ acc ++ l ++ ['\n'] := by
        simp only [List.mem_append, List.mem_singleton, not_or]
        exact ⟨⟨hacc, hlN⟩, NUL_ne_newline⟩
      have e1 : acc ++ (l ++ ['\n']) ++ [NUL] = (acc ++ l ++ ['\n']) ++ NUL :: [] := by simp
      have e2 : (acc ++ l ++ ['\n']) ++ NUL :: [] = (acc ++ l) ++ '\n' :: [NUL] := by simp
      rw [e1, strlen_eq _ _ hN]
      have hpos : (acc ++ l ++ ['\n']).length ≠ 0 := by simp
      rw [if_neg hpos, e2, load_last, if_pos rfl, set_last]
    · have hlong : bs - acc.length ≤ l.length + 1 := by omega
      rw [read_file_line_loop_round f l acc tail rest bs hacc hlN hl hbs hfit hlong (by omega)]
      have hNt : NUL ∉ l.take (bs - acc.length - 1) := fun h => hlN (List.mem_of_mem_take h)
      have hN : NUL ∉ acc ++ l.take (bs - acc.length - 1) := by
        simp only [List.mem_append, not_or]; exact ⟨hacc, hNt⟩
      have hlen : (acc ++ l.take (bs - acc.length - 1)).length = bs - 1 := by
        simp only [List.length_append, List.length_take]; omega
      have := ih (l.drop (bs - acc.length - 1)) (acc ++ l.take (bs - acc.length - 1)) [NUL] rest
        (bs * 2) hN (fun h => hlN (List.mem_of_mem_drop h)) (fun h => hl (List.mem_of_mem_drop h))
        (by omega) (by omega) (by omega) (by simp only [List.length_drop]; omega)
        (by simp only [List.length_drop]; omega)
      rw [this]
      simp [List.append_assoc, List.take_append_drop]

/-- The function `read_file_line` in front of a line that is terminated by a newline, free
of `NUL` and shorter than `2^31 - 1` bytes: the buffer returned holds the line, and the
stream is left after the newline. -/
theorem read_file_line_line (l rest : List Char) (hN : NUL ∉ l) (hl : '\n' ∉ l)
    (hlen : l.length < 2 ^ 31 - 1) :
    read_file_line ⟨l ++ '\n' :: rest, false⟩ = .ok (some (l ++ [NUL, NUL]), ⟨rest, false⟩) := by
  have := read_file_line_loop_line ((l ++ '\n' :: rest).length + 1) l [] [] rest 8
    (by simp) hN hl (by simp) (by decide) (by simp) (by simp only [List.length_nil]; omega)
    (by simp only [List.length_append, List.length_cons]; omega)
  simpa [read_file_line] using this

/-- The loop of `read_file_line` with a buffer of `2 * a` bytes, `a - 1` of them filled, in
front of a line that brings the total to `2^31 - 1` bytes or more: after the round with
`2^31` bytes the size handed to `fgets` is negative as an `int`, and `NULL` is returned. -/
theorem read_file_line_loop_long : ∀ (j fuel a : Nat) (l acc tail rest : List Char),
    a * 2 ^ j = 2 ^ 31 → acc.length + 1 = a → NUL ∉ acc → NUL ∉ l → '\n' ∉ l →
    2 ^ 31 - 1 ≤ acc.length + l.length → j < fuel →
    read_file_line_loop fuel ⟨l ++ '\n' :: rest, false⟩ (acc ++ tail) (2 * a) acc.length
      = .ok (none, ⟨l.drop (2 ^ 31 - 1 - acc.length) ++ '\n' :: rest, false⟩) := by
  intro j
  induction j with
  | zero =>
    intro fuel a l acc tail rest ha hacc _ _ _ _ hfuel
    cases fuel with
    | zero => omega
    | succ f =>
      rw [Nat.pow_zero, Nat.mul_one] at ha
      have hneg := size_t_to_int_neg (2 * a - acc.length) (by omega) (by omega)
      have hdrop : 2 ^ 31 - 1 - acc.length = 0 := by omega
      rw [read_file_line_loop, fgets_nonpos _ _ hneg, hdrop, List.drop_zero]
  | succ j ih =>
    intro fuel a l acc tail rest ha hacc haN hlN hl htot hfuel
    cases fuel with
    | zero => omega
    | succ f =>
      have ha2 : (a * 2) * 2 ^ j = 2 ^ 31 := by rw [← ha, Nat.pow_succ]; ring
      have hpos : 0 < 2 ^ j := Nat.two_pow_pos j
      have hle : a * 2 ≤ 2 ^ 31 := by
        rw [← ha2]; exact Nat.le_mul_of_pos_right _ hpos
      have hk : 2 * a - acc.length - 1 = a := by omega
      rw [read_file_line_loop_round f l acc tail rest (2 * a) haN hlN hl (by omega) (by omega)
        (by omega) (by omega), hk]
      have hN : NUL ∉ acc ++ l.take a := by
        simp only [List.mem_append, not_or]
        exact ⟨haN, fun h => hlN (List.mem_of_mem_take h)⟩
      have hlen : (acc ++ l.take a).length + 1 = a * 2 := by
        simp only [List.length_append, List.length_take]; omega
      have e : 2 * a * 2 = 2 * (a * 2) := by ring
      rw [e, ih f (a * 2) (l.drop a) (acc ++ l.take a) [NUL] rest ha2 hlen hN
        (fun h => hlN (List.mem_of_mem_drop h)) (fun h => hl (List.mem_of_mem_drop h))
        (by simp only [List.length_append, List.length_take, List.length_drop]; omega)
        (by omega), List.drop_drop]
      have hidx : a + (2 ^ 31 - 1 - (acc ++ l.take a).length) = 2 ^ 31 - 1 - acc.length := by
        simp only [List.length_append, List.length_take]; omega
      rw [hidx]

/-- The function `read_file_line` in front of a line of `2^31 - 1` bytes or more: `NULL` is
returned, with the first `2^31 - 1` bytes of the line taken from the stream. -/
theorem read_file_line_long (l rest : List Char) (hN : NUL ∉ l) (hl : '\n' ∉ l)
    (hlen : 2 ^ 31 - 1 ≤ l.length) :
    read_file_line ⟨l ++ '\n' :: rest, false⟩
      = .ok (none, ⟨l.drop (2 ^ 31 - 1) ++ '\n' :: rest, false⟩) := by
  unfold read_file_line
  have h0 := read_file_line_loop_round (l ++ '\n' :: rest).length l [] [] rest 8 (by simp) hN hl
    (by simp) (by simp) (by simp only [List.length_nil]; omega) (by decide)
  simp only [List.nil_append, List.length_nil, Nat.sub_zero, Nat.reduceSub, Nat.reduceMul] at h0
  rw [h0]
  have := read_file_line_loop_long 28 (l ++ '\n' :: rest).length 8 (l.drop 7) (l.take 7) [NUL]
    rest (by decide) (by rw [List.length_take]; omega)
    (fun h => hN (List.mem_of_mem_take h)) (fun h => hN (List.mem_of_mem_drop h))
    (fun h => hl (List.mem_of_mem_drop h))
    (by rw [List.length_take, List.length_drop]; omega)
    (by simp only [List.length_append, List.length_cons]; omega)
  simp only [Nat.reduceMul] at this
  rw [this, List.drop_drop]
  have : 7 + (2 ^ 31 - 1 - (l.take 7).length) = 2 ^ 31 - 1 := by
    rw [List.length_take]; omega
  rw [this]

theorem read_file_line_end : read_file_line ⟨[], false⟩ = .ok (none, ⟨[], true⟩) := by
  decide

theorem unlines_cons (l : List Char) (ls : List (List Char)) :
    unlines (l :: ls) = l ++ '\n' :: unlines ls := by
  simp [unlines]

theorem length_le_unlines (ls : List (List Char)) : ls.length ≤ (unlines ls).length := by
  induction ls with
  | nil => simp
  | cons l t ih =>
    rw [unlines_cons]
    simp only [List.length_append, List.length_cons]
    omega

/-- One round of the line loop on a line that is terminated by a newline, free of `NUL` and
shorter than `2^31 - 1` bytes: the first two words of the line are applied and the loop goes
on behind the newline. -/
theorem configfile_load_loop_step (fuel : Nat) (l rest : List Char) (cfg : Config)
    (hN : NUL ∉ l) (hl : '\n' ∉ l) (hlen : l.length < 2 ^ 31 - 1) :
    configfile_load_loop (fuel + 1) ⟨l ++ '\n' :: rest, false⟩ cfg
      = configfile_load_loop fuel ⟨rest, false⟩ (apply_tokens ((words l).take 2) cfg) := by
  rw [configfile_load_loop, read_file_line_line l rest hN hl hlen]
  simp only []
  rw [configfile_load_line_spec l [NUL] cfg hN]

/-- The line loop in front of a line of `2^31 - 1` bytes or more: the loop ends there and
nothing after it is applied. -/
theorem configfile_load_loop_long (fuel : Nat) (l rest : List Char) (cfg : Config)
    (hN : NUL ∉ l) (hl : '\n' ∉ l) (hlen : 2 ^ 31 - 1 ≤ l.length) :
    configfile_load_loop (fuel + 1) ⟨l ++ '\n' :: rest, false⟩ cfg = .ok cfg := by
  rw [configfile_load_loop, read_file_line_long l rest hN hl hlen]

/-- The line loop over a file made of lines that are terminated by a newline, free of `NUL`
and shorter than `2^31 - 1` bytes: it returns, having applied the first two words of each
line in turn. -/
theorem configfile_load_loop_lines : ∀ (lines : List (List Char)) (fuel : Nat) (cfg : Config),
    (∀ l ∈ lines, NUL ∉ l ∧ '\n' ∉ l ∧ l.length < 2 ^ 31 - 1) → lines.length < fuel →
    configfile_load_loop fuel ⟨unlines lines, false⟩ cfg
      = .ok (lines.foldl (fun c l => apply_tokens ((words l).take 2) c) cfg) := by
  intro lines
  induction lines with
  | nil =>
    intro fuel cfg _ hfuel
    cases fuel with
    | zero => simp at hfuel
    | succ f =>
      have : unlines [] = [] := rfl
      rw [configfile_load_loop, this, read_file_line_end]
      rfl
  | cons l ls ih =>
    intro fuel cfg hls hfuel
    cases fuel with
    | zero => simp at hfuel
    | succ f =>
      have hl := hls l (by simp)
      rw [unlines_cons, configfile_load_loop_step f l _ cfg hl.1 hl.2.1 hl.2.2,
        ih f _ (fun x hx => hls x (by simp [hx])) (by simpa using hfuel)]
      rfl

theorem configfile_load_file_lines (lines : List (List Char)) (cfg : Config)
    (h : ∀ l ∈ lines, NUL ∉ l ∧ '\n' ∉ l ∧ l.length < 2 ^ 31 - 1) :
    configfile_load_file (unlines lines) cfg
      = .ok (lines.foldl (fun c l => apply_tokens ((words l).take 2) c) cfg) := by
  unfold configfile_load_file fopen_r
  exact configfile_load_loop_lines lines _ cfg h (by have := length_le_unlines lines; omega)

/-! ### Lines of `2^31 - 1` bytes or more -/

/-- A line made of `n` letters `b`: free of `NUL`, of newlines and of white space. -/
theorem long_line_wf (n : Nat) :
    NUL ∉ List.replicate n 'b' ∧ '\n' ∉ List.replicate n 'b' ∧
    (∀ c ∈ List.replicate n 'b', isspace c = false) ∧ (List.replicate n 'b').length = n := by
  refine ⟨?_, ?_, ?_, List.length_replicate _ _⟩
  · intro h
    exact absurd (List.eq_of_mem_replicate h) (by decide)
  · intro h
    exact absurd (List.eq_of_mem_replicate h) (by decide)
  · intro c h
    rw [List.eq_of_mem_replicate h]
    rfl

theorem long_line_ne_nil (n : Nat) (hn : 0 < n) : List.replicate n 'b' ≠ [] := by
  intro h
  have := congrArg List.length h
  rw [List.length_replicate] at this
  simp only [List.length_nil] at this
  omega

/-- Loading a file whose first line has `2^31 - 1` bytes or more: nothing is applied. -/
theorem configfile_load_file_long (l rest : List Char) (cfg : Config)
    (hN : NUL ∉ l) (hl : '\n' ∉ l) (hlen : 2 ^ 31 - 1 ≤ l.length) :
    configfile_load_file (l ++ '\n' :: rest) cfg = .ok cfg := by
  unfold configfile_load_file fopen_r
  exact configfile_load_loop_long _ l rest cfg hN hl hlen

/-- Loading a file whose first line is short and whose second line has `2^31 - 1` bytes or
more: the first line is applied and nothing else. -/
theorem configfile_load_file_short_long (l x rest : List Char) (cfg : Config)
    (hN : NUL ∉ l) (hl : '\n' ∉ l) (hlen : l.length < 2 ^ 31 - 1)
    (hxN : NUL ∉ x) (hxl : '\n' ∉ x) (hxlen : 2 ^ 31 - 1 ≤ x.length) :
    configfile_load_file (l ++ '\n' :: (x ++ '\n' :: rest)) cfg
      = .ok (apply_tokens ((words l).take 2) cfg) := by
  unfold configfile_load_file fopen_r
  rw [configfile_load_loop_step _ l _ cfg hN hl hlen]
  have : (l ++ '\n' :: (x ++ '\n' :: rest)).length = (l.length + x.length + rest.length + 1) + 1 := by
    simp only [List.length_append, List.length_cons]
    omega
  rw [this]
  exact configfile_load_loop_long _ x rest _ hxN hxl hxlen

/-! ### Decimal numerals -/

theorem toNat_digit (d : Nat) (h : d < 10) : (Char.ofNat (48 + d)).toNat = 48 + d := by
  interval_cases d <;> rfl

theorem isdigit_digit (d : Nat) (h : d < 10) : isdigit (Char.ofNat (48 + d)) = true := by
  interval_cases d <;> rfl

theorem digitChar_eq (d : Nat) (h : d < 10) : Nat.digitChar d = Char.ofNat (48 + d) := by
  interval_cases d <;> rfl

theorem utoa_rev_isdigit : ∀ (fuel n : Nat), ∀ c ∈ utoa_rev fuel n, isdigit c = true := by
  intro fuel
  induction fuel with
  | zero => intro n c hc; simp [utoa_rev] at hc
  | succ f ih =>
    intro n c hc
    rw [utoa_rev, List.mem_cons] at hc
    rcases hc with rfl | hc
    · exact isdigit_digit _ (Nat.mod_lt _ (by omega))
    · by_cases h : n / 10 = 0
      · simp [h] at hc
      · rw [if_neg h] at hc; exact ih _ c hc

theorem utoa_rev_ne_nil (fuel n : Nat) : utoa_rev (fuel + 1) n ≠ [] := by
  simp [utoa_rev]

theorem digits_value_concat (l : List Char) (c : Char) :
    digits_value (l ++ [c]) = 10 * digits_value l + (c.toNat - 48) := by
  simp [digits_value, List.foldl_append]

theorem digits_value_utoa : ∀ (fuel n : Nat), n < fuel →
    digits_value (utoa_rev fuel n).reverse = n := by
  intro fuel
  induction fuel with
  | zero => intro n h; omega
  | succ f ih =>
    intro n hn
    rw [utoa_rev, List.reverse_cons, digits_value_concat, toNat_digit _ (Nat.mod_lt _ (by omega))]
    by_cases h : n / 10 = 0
    · rw [if_pos h]
      have : digits_value ([] : List Char).reverse = 0 := rfl
      rw [this]; omega
    · rw [if_neg h, ih (n / 10) (by omega)]; omega

/-- The numeral written for `%u` is the decimal numeral Lean prints for the number. -/
theorem utoa_rev_toDigitsCore : ∀ (fuel n : Nat) (ds : List Char),
    Nat.toDigitsCore 10 fuel n ds = (utoa_rev fuel n).reverse ++ ds := by
  intro fuel
  induction fuel with
  | zero => intro n ds; rfl
  | succ f ih =>
    intro n ds
    rw [Nat.toDigitsCore, utoa_rev, digitChar_eq _ (Nat.mod_lt _ (by omega))]
    by_cases h : n / 10 = 0
    · simp [h]
    · simp [h, ih]

theorem fprintf_u_eq_repr (n : Nat) : fprintf_u n = (Nat.repr n).toList := by
  simp [fprintf_u, Nat.repr, Nat.toDigits, utoa_rev_toDigitsCore, List.asString]

theorem fprintf_u_isdigit (n : Nat) : ∀ c ∈ fprintf_u n, isdigit c = true := by
  intro c hc
  exact utoa_rev_isdigit (n + 1) n c (by simpa [fprintf_u] using hc)

theorem fprintf_u_ne_nil (n : Nat) : fprintf_u n ≠ [] := by
  simp [fprintf_u, utoa_rev]

theorem fprintf_u_value (n : Nat) : digits_value (fprintf_u n) = n :=
  digits_value_utoa (n + 1) n (by omega)

theorem getLast?_cons_of_ne_nil (a : Char) (l : List Char) (h : l ≠ []) :
    (a :: l).getLast? = l.getLast? := by
  cases l with
  | nil => exact absurd rfl h
  | cons b t => simp [List.getLast?_cons_cons]

theorem utoa_rev_getLast : ∀ (fuel n : Nat), n < fuel → 0 < n →
    ∀ c, (utoa_rev fuel n).getLast? = some c → c ≠ '0' := by
  intro fuel
  induction fuel with
  | zero => intro n h; omega
  | succ f ih =>
    intro n hn hpos c hc
    rw [utoa_rev] at hc
    by_cases h : n / 10 = 0
    · rw [if_pos h] at hc
      have hlt : n < 10 := by omega
      simp only [List.getLast?_singleton, Option.some.injEq] at hc
      subst hc
      rw [Nat.mod_eq_of_lt hlt]
      interval_cases n <;> decide
    · rw [if_neg h] at hc
      cases f with
      | zero => omega
      | succ g =>
        rw [getLast?_cons_of_ne_nil _ _ (utoa_rev_ne_nil g _)] at hc
        exact ih (n / 10) (by omega) (by omega) c hc

theorem isdigit_not_space (c : Char) (h : isdigit c = true) : isspace c = false := by
  unfold isdigit at h
  unfold isspace
  simp at h ⊢
  omega


theorem isdigit_ne_sign (c : Char) (h : isdigit c = true) : c ≠ '-' ∧ c ≠ '+' := by
  constructor <;> (intro hc; subst hc; revert h; decide)

theorem isdigit_ne_NUL (c : Char) (h : isdigit c = true) : c ≠ NUL := by
  intro hc; subst hc; revert h; decide

theorem isdigit_ne_newline (c : Char) (h : isdigit c = true) : c ≠ '\n' := by
  intro hc; subst hc; revert h; decide

/-- The conversion `%u` of `sscanf` on a string of digits stores the number they denote,
as long as it fits in 32 bits. -/
theorem sscanf_u_digits (ds : List Char) (hne : ds ≠ []) (hd : ∀ c ∈ ds, isdigit c = true)
    (hv : digits_value ds < 2 ^ 32) : sscanf_u ds = some (digits_value ds) := by
  obtain ⟨c, t, rfl⟩ := List.exists_cons_of_ne_nil hne
  have hc := hd c (by simp)
  have hsp := isdigit_not_space c hc
  have hsign := isdigit_ne_sign c hc
  have htw : (c :: t).takeWhile isdigit = c :: t := by
    rw [List.takeWhile_eq_self_iff]; exact hd
  unfold sscanf_u
  simp only [List.dropWhile_cons, hsp, List.head?_cons]
  have h1 : (some c == some '-') = false := by simp [hsign.1]
  have h2 : (some c == some '+') = false := by simp [hsign.2]
  simp only [List.head?_cons, h1, h2, Bool.or_false, Bool.false_eq_true, if_false, htw,
    List.isEmpty_cons]
  have h3 : ¬ 2 ^ 64 ≤ digits_value (c :: t) := by omega
  rw [if_neg h3]
  simp only [Option.some.injEq]
  omega

/-! ## The claims -/

theorem words_all_space (l : List Char) (h : ∀ c ∈ l, isspace c = true) : words l = [] := by
  have := words_spaces l [] h
  rwa [List.append_nil, words_nil] at this

/-- C3: on a line free of `NUL`, `tokenize_string` returns `min maxTokens n` tokens, the
first ones of the `n` maximal runs of non-whitespace characters of the line, in order; an
empty or all-whitespace line has no token; `key_a   123  ignored_extra` with a bound of two
has exactly the tokens `key_a` and `123`. -/
theorem tokenize_string_maximal_runs (line : List Char) (maxTokens : Nat) (hN : NUL ∉ line) :
    (∃ tokens mem, tokenize_string (line ++ [NUL]) 0 (maxTokens : Int)
        = .ok (min maxTokens (words line).length, tokens, mem) ∧
      tokens.map (cstr mem) = (words line).take maxTokens ∧
      ((∀ c ∈ line, isspace c = true) → tokens = [])) ∧
    (tokenize_string ("key_a   123  ignored_extra".toList ++ [NUL]) 0 2).map
        (fun r => (r.1, r.2.1.map (cstr r.2.2)))
      = .ok (2, ["key_a".toList, "123".toList]) := by
  refine ⟨?_, by decide⟩
  obtain ⟨toks, mem, hrun, hmap⟩ := tokenize_string_spec [] line [] (maxTokens : Int) hN
  simp only [List.nil_append, List.length_nil, Int.toNat_ofNat] at hrun hmap
  have hlen : toks.length = min maxTokens (words line).length := by
    have := congrArg List.length hmap
    simpa using this
  refine ⟨toks, mem, by rw [hrun, hlen], hmap, ?_⟩
  intro hsp
  rw [words_all_space line hsp] at hlen
  exact List.length_eq_zero.mp (by simpa using hlen)

theorem tokenize_string_maximal_runs_witness :
    NUL ∉ "  a bc  d ".toList ∧
    ((∃ tokens mem, tokenize_string ("  a bc  d ".toList ++ [NUL]) 0 ((2 : Nat) : Int)
        = .ok (min 2 (words "  a bc  d ".toList).length, tokens, mem) ∧
      tokens.map (cstr mem) = (words "  a bc  d ".toList).take 2 ∧
      ((∀ c ∈ "  a bc  d ".toList, isspace c = true) → tokens = [])) ∧
    (tokenize_string ("key_a   123  ignored_extra".toList ++ [NUL]) 0 2).map
        (fun r => (r.1, r.2.1.map (cstr r.2.2)))
      = .ok (2, ["key_a".toList, "123".toList])) :=
  ⟨by decide, tokenize_string_maximal_runs "  a bc  d ".toList 2 (by decide)⟩

/-- C5: a final line of seven bytes without a newline is not returned: `read_file_line`
answers `NULL` although seven bytes were pending, where a final line of six bytes is
returned unchanged. -/
theorem read_file_line_unterminated_seven :
    read_file_line (fopen_r "key_a 1".toList) = .ok (none, ⟨[], true⟩) ∧
    (read_file_line (fopen_r "key_a1".toList)).map (fun r => r.1.map (fun b => cstr b 0))
      = .ok (some "key_a1".toList) := by
  decide

/-- C6: loading the file `fullscreen true` without a final newline leaves `fullscreen` at
`false`, where the same line with its newline sets it and keeps every other value. -/
theorem configfile_load_fullscreen_true :
    configfile_load_file "fullscreen true".toList defaults = .ok defaults ∧
    ∀ cfg, configfile_load_file "fullscreen true\n".toList cfg
      = .ok { cfg with configFullscreen := true } := by
  refine ⟨by decide, ?_⟩
  intro cfg
  have := configfile_load_file_lines ["fullscreen true".toList] cfg (by decide)
  have e : unlines ["fullscreen true".toList] = "fullscreen true\n".toList := by decide
  rw [e] at this
  rw [this]
  have hw : (words "fullscreen true".toList).take 2 = ["fullscreen".toList, "true".toList] := by
    decide
  simp only [List.foldl_cons, List.foldl_nil, hw]
  rfl

theorem find_option_mem (o : ConfigOption) (ho : o ∈ options) : find_option o.name = some o := by
  simp only [options, List.mem_cons, List.mem_singleton, List.not_mem_nil, or_false] at ho
  rcases ho with rfl | rfl | rfl | rfl | rfl | rfl | rfl | rfl | rfl | rfl | rfl | rfl | rfl | rfl
    <;> rfl

theorem find_option_unknown (name : List Char) (h : ∀ o ∈ options, name ≠ o.name) :
    find_option name = none := by
  unfold find_option
  rw [List.find?_eq_none]
  intro o ho
  simpa using h o ho

theorem set_uint_get (cfg : Config) (p : UIntVar) (n : Nat) :
    (cfg.setUInt p n).getUInt p = n ∧ (∀ q, q ≠ p → (cfg.setUInt p n).getUInt q = cfg.getUInt q) ∧
      (cfg.setUInt p n).configFullscreen = cfg.configFullscreen := by
  refine ⟨by cases p <;> rfl, ?_, by cases p <;> rfl⟩
  intro q hq
  cases p <;> cases q <;> first | rfl | exact absurd rfl hq

theorem set_bool_get (cfg : Config) (p : BoolVar) (b : Bool) :
    (cfg.setBool p b).configFullscreen = b ∧ ∀ q, (cfg.setBool p b).getUInt q = cfg.getUInt q := by
  cases p
  exact ⟨rfl, fun q => by cases q <;> rfl⟩

/-- C7: a line whose first two tokens are `fullscreen` and `t` sets the option to true when
`t` is `true`, to false when `t` is `false`, and keeps its value for any other `t`, such as
`True`, `TRUE`, `1` and `yes`; no other option changes. -/
theorem configfile_load_line_bool (line junk t : List Char) (cfg : Config) (hN : NUL ∉ line)
    (hw : (words line).take 2 = ["fullscreen".toList, t]) :
    (∃ cfg', configfile_load_line (line ++ NUL :: junk) cfg = .ok cfg' ∧
      cfg'.configFullscreen
        = (if t = "true".toList then true
           else if t = "false".toList then false else cfg.configFullscreen) ∧
      ∀ p, cfg'.getUInt p = cfg.getUInt p) ∧
    ∀ u ∈ ["True".toList, "TRUE".toList, "1".toList, "yes".toList],
      configfile_load_line ("fullscreen ".toList ++ u ++ [NUL]) cfg = .ok cfg := by
  constructor
  · rw [configfile_load_line_spec line junk cfg hN, hw]
    have hf : find_option "fullscreen".toList
        = some ⟨"fullscreen".toList, .boolValue .configFullscreen⟩ := rfl
    simp only [apply_tokens, hf, set_option_value]
    by_cases h1 : t = "true".toList
    · rw [if_pos h1, if_pos h1]
      exact ⟨_, rfl, (set_bool_get cfg _ true).1, (set_bool_get cfg _ true).2⟩
    · rw [if_neg h1, if_neg h1]
      by_cases h2 : t = "false".toList
      · rw [if_pos h2, if_pos h2]
        exact ⟨_, rfl, (set_bool_get cfg _ false).1, (set_bool_get cfg _ false).2⟩
      · rw [if_neg h2, if_neg h2]
        exact ⟨_, rfl, rfl, fun _ => rfl⟩
  · intro u hu
    simp only [List.mem_cons, List.mem_singleton, List.not_mem_nil, or_false] at hu
    rcases hu with rfl | rfl | rfl | rfl
    all_goals
      rw [configfile_load_line_spec _ [] cfg (by decide)]
      rfl

theorem configfile_load_line_bool_witness :
    NUL ∉ " fullscreen  false x".toList ∧
    (words " fullscreen  false x".toList).take 2 = ["fullscreen".toList, "false".toList] ∧
    ((∃ cfg', configfile_load_line (" fullscreen  false x".toList ++ NUL :: []) defaults
        = .ok cfg' ∧
      cfg'.configFullscreen
        = (if "false".toList = "true".toList then true
           else if "false".toList = "false".toList then false else defaults.configFullscreen) ∧
      ∀ p, cfg'.getUInt p = defaults.getUInt p) ∧
    ∀ u ∈ ["True".toList, "TRUE".toList, "1".toList, "yes".toList],
      configfile_load_line ("fullscreen ".toList ++ u ++ [NUL]) defaults = .ok defaults) :=
  ⟨by decide, by decide,
    configfile_load_line_bool " fullscreen  false x".toList [] "false".toList defaults
      (by decide) (by decide)⟩

/-- C8: a line whose first token names an `unsigned int` option and whose second token is a
run of digits denoting a number below `2^32`, leading zeros allowed, sets that option to
exactly that number and changes no other option. -/
theorem configfile_load_line_uint (line junk t : List Char) (cfg : Config) (o : ConfigOption)
    (p : UIntVar) (n : Nat) (ho : o ∈ options) (hp : o.value = .uintValue p) (hN : NUL ∉ line)
    (hw : (words line).take 2 = [o.name, t]) (hne : t ≠ [])
    (hd : ∀ c ∈ t, isdigit c = true) (hv : digits_value t = n) (hn : n < 2 ^ 32) :
    ∃ cfg', configfile_load_line (line ++ NUL :: junk) cfg = .ok cfg' ∧
      cfg'.getUInt p = n ∧ (∀ q, q ≠ p → cfg'.getUInt q = cfg.getUInt q) ∧
      cfg'.configFullscreen = cfg.configFullscreen := by
  rw [configfile_load_line_spec line junk cfg hN, hw]
  subst hv
  simp only [apply_tokens, find_option_mem o ho, set_option_value, hp,
    sscanf_u_digits t hne hd hn]
  exact ⟨_, rfl, set_uint_get cfg p _⟩

theorem configfile_load_line_uint_witness :
    (⟨"key_z".toList, .uintValue .configKeyZ⟩ : ConfigOption) ∈ options ∧
    NUL ∉ "key_z 0042".toList ∧
    (words "key_z 0042".toList).take 2 = ["key_z".toList, "0042".toList] ∧
    "0042".toList ≠ [] ∧ (∀ c ∈ "0042".toList, isdigit c = true) ∧
    digits_value "0042".toList = 42 ∧ 42 < 2 ^ 32 ∧
    ∃ cfg', configfile_load_line ("key_z 0042".toList ++ NUL :: []) defaults = .ok cfg' ∧
      cfg'.getUInt .configKeyZ = 42 ∧
      (∀ q, q ≠ .configKeyZ → cfg'.getUInt q = defaults.getUInt q) ∧
      cfg'.configFullscreen = defaults.configFullscreen :=
  ⟨by simp [options], by decide, by decide, by decide, by decide, by decide, by decide,
    configfile_load_line_uint "key_z 0042".toList [] "0042".toList defaults
      ⟨"key_z".toList, .uintValue .configKeyZ⟩ .configKeyZ 42 (by simp [options]) rfl
      (by decide) (by decide) (by decide) (by decide) (by decide) (by decide)⟩

theorem names_wf (o : ConfigOption) (ho : o ∈ options) :
    o.name ≠ [] ∧ (∀ c ∈ o.name, isspace c = false) ∧ NUL ∉ o.name ∧ '\n' ∉ o.name := by
  simp only [options, List.mem_cons, List.mem_singleton, List.not_mem_nil, or_false] at ho
  rcases ho with rfl | rfl | rfl | rfl | rfl | rfl | rfl | rfl | rfl | rfl | rfl | rfl | rfl | rfl
    <;> decide

theorem words_pair (name value : List Char) (hn : name ≠ [])
    (hns : ∀ c ∈ name, isspace c = false) (hv : value ≠ [])
    (hvs : ∀ c ∈ value, isspace c = false) :
    (words (name ++ ' ' :: value)).take 2 = [name, value] := by
  rw [words_word name value ' ' hn hns (by decide), words_single value hv hvs]
  rfl

/-- The text of a value as `configfile_save` prints it: not empty, free of white space, of
`NUL` and of newlines. -/
theorem save_value_wf (value : List Char)
    (h : value = "true".toList ∨ value = "false".toList ∨ ∃ n, value = fprintf_u n) :
    value ≠ [] ∧ (∀ c ∈ value, isspace c = false) ∧ NUL ∉ value ∧ '\n' ∉ value := by
  rcases h with rfl | rfl | ⟨n, rfl⟩
  · decide
  · decide
  · refine ⟨fprintf_u_ne_nil n, fun c hc => isdigit_not_space c (fprintf_u_isdigit n c hc), ?_, ?_⟩
    · intro h; exact isdigit_ne_NUL _ (fprintf_u_isdigit n _ h) rfl
    · intro h; exact isdigit_ne_newline _ (fprintf_u_isdigit n _ h) rfl

theorem save_option_shape (cfg : Config) (o : ConfigOption) :
    ∃ value, configfile_save_option cfg o = (o.name ++ ' ' :: value) ++ ['\n'] ∧
      (value = "true".toList ∨ value = "false".toList ∨ ∃ n, value = fprintf_u n) := by
  obtain ⟨name, v⟩ := o
  cases v with
  | boolValue p =>
    refine ⟨if cfg.getBool p then "true".toList else "false".toList, rfl, ?_⟩
    cases cfg.getBool p
    · right; left; rfl
    · left; rfl
  | uintValue p => exact ⟨fprintf_u (cfg.getUInt p), rfl, Or.inr (Or.inr ⟨_, rfl⟩)⟩
  | floatValue p => exact nomatch p

theorem configfile_save_text_unlines (cfg : Config) :
    configfile_save_text cfg
      = unlines (options.map (fun o => (configfile_save_option cfg o).dropLast)) := by
  unfold configfile_save_text unlines
  rw [List.map_map]
  congr 1
  apply List.map_congr_left
  intro o _
  obtain ⟨value, hv, _⟩ := save_option_shape cfg o
  show configfile_save_option cfg o = (configfile_save_option cfg o).dropLast ++ ['\n']
  rw [hv, List.dropLast_concat]

/-- What reading back the line written for an option does: the variable of the option gets
the value that was written. -/
theorem apply_saved_line (v c : Config) (hv : ∀ p, v.getUInt p < 2 ^ 32) (o : ConfigOption)
    (ho : o ∈ options) :
    apply_tokens ((words (configfile_save_option v o).dropLast).take 2) c
      = (match o.value with
        | .boolValue p => c.setBool p (v.getBool p)
        | .uintValue p => c.setUInt p (v.getUInt p)
        | .floatValue p => nomatch p) := by
  obtain ⟨hn, hns, _, _⟩ := names_wf o ho
  obtain ⟨value, hshape, hval⟩ := save_option_shape v o
  obtain ⟨hvne, hvs, _, _⟩ := save_value_wf value hval
  have hfind := find_option_mem o ho
  rw [hshape, List.dropLast_concat, words_pair o.name value hn hns hvne hvs]
  simp only [apply_tokens, hfind]
  obtain ⟨name, ov⟩ := o
  cases ov with
  | boolValue p =>
    have : value = if v.getBool p then "true".toList else "false".toList := by
      have h : configfile_save_option v ⟨name, .boolValue p⟩
          = (name ++ ' ' :: (if v.getBool p then "true".toList else "false".toList)) ++ ['\n'] :=
        rfl
      rw [h] at hshape
      have := List.append_cancel_right hshape
      exact (List.cons.inj (List.append_cancel_left this)).2.symm
    subst this
    simp only [set_option_value]
    cases v.getBool p <;> rfl
  | uintValue p =>
    have : value = fprintf_u (v.getUInt p) := by
      have h : configfile_save_option v ⟨name, .uintValue p⟩
          = (name ++ ' ' :: fprintf_u (v.getUInt p)) ++ ['\n'] := rfl
      rw [h] at hshape
      have := List.append_cancel_right hshape
      exact (List.cons.inj (List.append_cancel_left this)).2.symm
    subst this
    have hs := sscanf_u_digits (fprintf_u (v.getUInt p)) (fprintf_u_ne_nil _)
      (fprintf_u_isdigit _) (by rw [fprintf_u_value]; exact hv p)
    simp only [set_option_value, hs, fprintf_u_value]
  | floatValue p => exact nomatch p

theorem utoa_rev_length : ∀ (k fuel n : Nat), n < 10 ^ (k + 1) →
    (utoa_rev fuel n).length ≤ k + 1 := by
  intro k
  induction k with
  | zero =>
    intro fuel n h
    have h10 : n < 10 := by simpa using h
    cases fuel with
    | zero => simp [utoa_rev]
    | succ f =>
      have h0 : n / 10 = 0 := by omega
      rw [utoa_rev, if_pos h0]
      simp
  | succ k ih =>
    intro fuel n h
    cases fuel with
    | zero => simp [utoa_rev]
    | succ f =>
      rw [utoa_rev]
      split
      · simp
      · have hdiv : n / 10 < 10 ^ (k + 1) := by
          rw [Nat.div_lt_iff_lt_mul (by decide)]
          rw [pow_succ] at h
          exact h
        have := ih f (n / 10) hdiv
        simp only [List.length_cons]
        omega

/-- An `unsigned int` is printed with ten digits at most. -/
theorem fprintf_u_length (n : Nat) (h : n < 2 ^ 32) : (fprintf_u n).length ≤ 10 := by
  unfold fprintf_u
  rw [List.length_reverse]
  exact utoa_rev_length 9 _ n (lt_trans h (by norm_num))

theorem names_length (o : ConfigOption) (ho : o ∈ options) : o.name.length ≤ 16 := by
  simp only [options, List.mem_cons, List.mem_singleton, List.not_mem_nil, or_false] at ho
  rcases ho with rfl | rfl | rfl | rfl | rfl | rfl | rfl | rfl | rfl | rfl | rfl | rfl | rfl | rfl
    <;> decide

/-- The line written for an option is short. -/
theorem save_option_length (cfg : Config) (hv : ∀ p, cfg.getUInt p < 2 ^ 32)
    (o : ConfigOption) : (configfile_save_option cfg o).length ≤ o.name.length + 12 := by
  obtain ⟨name, v⟩ := o
  cases v with
  | boolValue p =>
    show ((name ++ ' ' :: (if cfg.getBool p then "true".toList else "false".toList))
      ++ ['\n']).length ≤ name.length + 12
    cases cfg.getBool p <;> simp
  | uintValue p =>
    have := fprintf_u_length _ (hv p)
    show ((name ++ ' ' :: fprintf_u (cfg.getUInt p)) ++ ['\n']).length ≤ name.length + 12
    simp only [List.length_append, List.length_cons, List.length_nil]
    omega
  | floatValue p => exact nomatch p

theorem saved_lines_wf (cfg : Config) (hv : ∀ p, cfg.getUInt p < 2 ^ 32) :
    ∀ l ∈ options.map (fun o => (configfile_save_option cfg o).dropLast),
      NUL ∉ l ∧ '\n' ∉ l ∧ l.length < 2 ^ 31 - 1 := by
  intro l hl
  rw [List.mem_map] at hl
  obtain ⟨o, ho, rfl⟩ := hl
  obtain ⟨_, _, hnN, hnl⟩ := names_wf o ho
  have hlen := save_option_length cfg hv o
  have hname := names_length o ho
  refine ⟨?_, ?_, by rw [List.length_dropLast]; omega⟩
  all_goals
    obtain ⟨value, hshape, hval⟩ := save_option_shape cfg o
    obtain ⟨_, _, hvN, hvl⟩ := save_value_wf value hval
    rw [hshape, List.dropLast_concat]
    simp only [List.mem_append, List.mem_cons, not_or]
  · exact ⟨hnN, by decide, hvN⟩
  · exact ⟨hnl, by decide, hvl⟩

theorem foldl_saved_lines (v : Config) (hv : ∀ p, v.getUInt p < 2 ^ 32) :
    ∀ (os : List ConfigOption), (∀ o ∈ os, o ∈ options) → ∀ c : Config,
    (os.map (fun o => (configfile_save_option v o).dropLast)).foldl
        (fun c l => apply_tokens ((words l).take 2) c) c
      = os.foldl (fun c o => match o.value with
        | .boolValue p => c.setBool p (v.getBool p)
        | .uintValue p => c.setUInt p (v.getUInt p)
        | .floatValue p => nomatch p) c := by
  intro os
  induction os with
  | nil => intro _ c; rfl
  | cons o t ih =>
    intro h c
    simp only [List.map_cons, List.foldl_cons]
    rw [apply_saved_line v c hv o (h o (by simp)), ih (fun x hx => h x (by simp [hx]))]

/-- C1: loading the text that `configfile_save` writes for the values `v`, each
`unsigned int` below `2^32`, from any prior state `s`, ends with every option equal to its
value in `v`. -/
theorem configfile_save_load_round_trip (v s : Config) (hv : ∀ p, v.getUInt p < 2 ^ 32) :
    configfile_load_file (configfile_save_text v) s = .ok v := by
  rw [configfile_save_text_unlines, configfile_load_file_lines _ s (saved_lines_wf v hv),
    foldl_saved_lines v hv options (fun _ h => h) s]
  cases v
  cases s
  rfl

theorem configfile_save_load_round_trip_witness :
    (∀ p, defaults.getUInt p < 2 ^ 32) ∧
    configfile_load_file (configfile_save_text defaults)
      { defaults with configFullscreen := true, configKeyA := 7 } = .ok defaults :=
  ⟨by intro p; cases p <;> decide,
    configfile_save_load_round_trip defaults _ (by intro p; cases p <;> decide)⟩

theorem fprintf_u_head (n : Nat) (h : (fprintf_u n).head? = some '0') : n = 0 := by
  by_contra hn
  unfold fprintf_u at h
  rw [List.head?_reverse] at h
  exact utoa_rev_getLast (n + 1) n (by omega) (by omega) '0' h rfl

/-- C2: the text `configfile_save` writes is one newline-terminated line `name value` per
option in the order of the table, `true` or `false` for the `bool` option and the decimal
numeral for an `unsigned int` option: digits only, no leading zero, denoting the value. With
the initial values the text starts with the lines `fullscreen false` and `key_a 38`. -/
theorem configfile_save_text_lines (cfg : Config) :
    configfile_save_text cfg = unlines
      [ "fullscreen ".toList ++ (if cfg.configFullscreen then "true".toList else "false".toList),
        "key_a ".toList ++ (Nat.repr cfg.configKeyA).toList,
        "key_b ".toList ++ (Nat.repr cfg.configKeyB).toList,
        "key_start ".toList ++ (Nat.repr cfg.configKeyStart).toList,
        "key_r ".toList ++ (Nat.repr cfg.configKeyR).toList,
        "key_z ".toList ++ (Nat.repr cfg.configKeyZ).toList,
        "key_cup ".toList ++ (Nat.repr cfg.configKeyCUp).toList,
        "key_cdown ".toList ++ (Nat.repr cfg.configKeyCDown).toList,
        "key_cleft ".toList ++ (Nat.repr cfg.configKeyCLeft).toList,
        "key_cright ".toList ++ (Nat.repr cfg.configKeyCRight).toList,
        "key_stickup ".toList ++ (Nat.repr cfg.configKeyStickUp).toList,
        "key_stickdown ".toList ++ (Nat.repr cfg.configKeyStickDown).toList,
        "key_stickleft ".toList ++ (Nat.repr cfg.configKeyStickLeft).toList,
        "key_stickright ".toList ++ (Nat.repr cfg.configKeyStickRight).toList ] ∧
    (∀ n : Nat, (Nat.repr n).toList ≠ [] ∧ (∀ c ∈ (Nat.repr n).toList, isdigit c = true) ∧
      digits_value (Nat.repr n).toList = n ∧ ((Nat.repr n).toList.head? = some '0' → n = 0)) ∧
    configfile_save_text defaults
      = ("fullscreen false\nkey_a 38\nkey_b 51\nkey_start 57\nkey_r 54\nkey_z 37\n"
        ++ "key_cup 328\nkey_cdown 336\nkey_cleft 331\nkey_cright 333\nkey_stickup 17\n"
        ++ "key_stickdown 31\nkey_stickleft 30\nkey_stickright 32\n").toList := by
  refine ⟨?_, ?_, by rfl⟩
  · simp only [← fprintf_u_eq_repr]
    simp [configfile_save_text, options, configfile_save_option, unlines, Config.getBool,
      Config.getUInt]
  · intro n
    rw [← fprintf_u_eq_repr]
    exact ⟨fprintf_u_ne_nil n, fprintf_u_isdigit n, fprintf_u_value n, fprintf_u_head n⟩

theorem foldl_insert_noop (f : Config → List Char → Config) (pre post : List (List Char))
    (x : List Char) (cfg : Config) (hx : ∀ c, f c x = c) :
    (pre ++ x :: post).foldl f cfg = (pre ++ post).foldl f cfg := by
  simp [List.foldl_append, hx]

theorem foo_unknown : ∀ o ∈ options, some "foo".toList ≠ some o.name := by
  intro o ho
  simp only [options, List.mem_cons, List.mem_singleton, List.not_mem_nil, or_false] at ho
  rcases ho with rfl | rfl | rfl | rfl | rfl | rfl | rfl | rfl | rfl | rfl | rfl | rfl | rfl | rfl
    <;> decide

/-- C9 as stated fails in two ways. On a file with a `NUL` byte: after the line `abc`
followed by a `NUL`, the reader joins the next line to it, so inserting `foo bar` before
`fullscreen true` changes what is loaded. And for a line of `2^31 - 1` bytes or more: the
line `foo`, a blank and `2^31 - 1` letters `b` has two tokens and an unknown first token, and
inserted before `fullscreen true` it ends the load, so `fullscreen` stays `false`. -/
theorem unknown_key_line_counterexample :
    (2 ≤ (words "foo bar".toList).length ∧
      (∀ o ∈ options, (words "foo bar".toList).head? ≠ some o.name) ∧
      configfile_load_file
          (unlines (["abc".toList ++ [NUL]] ++ "foo bar".toList :: ["fullscreen true".toList]))
          defaults = .ok { defaults with configFullscreen := true } ∧
      configfile_load_file (unlines (["abc".toList ++ [NUL]] ++ ["fullscreen true".toList]))
          defaults = .ok defaults) ∧
    (NUL ∉ "foo".toList ++ ' ' :: List.replicate (2 ^ 31 - 1) 'b' ∧
      '\n' ∉ "foo".toList ++ ' ' :: List.replicate (2 ^ 31 - 1) 'b' ∧
      2 ≤ (words ("foo".toList ++ ' ' :: List.replicate (2 ^ 31 - 1) 'b')).length ∧
      (∀ o ∈ options,
        (words ("foo".toList ++ ' ' :: List.replicate (2 ^ 31 - 1) 'b')).head? ≠ some o.name) ∧
      configfile_load_file
          (unlines [("foo".toList ++ ' ' :: List.replicate (2 ^ 31 - 1) 'b'),
            "fullscreen true".toList])
          defaults = .ok defaults ∧
      configfile_load_file (unlines ["fullscreen true".toList]) defaults
        = .ok { defaults with configFullscreen := true }) := by
  refine ⟨⟨by decide, ?_, by decide, by decide⟩, ?_⟩
  · intro o ho
    have hw : (words "foo bar".toList).head? = some "foo".toList := by decide
    rw [hw]
    exact foo_unknown o ho
  · obtain ⟨hN, hl, hsp, hlen⟩ := long_line_wf (2 ^ 31 - 1)
    have hne := long_line_ne_nil (2 ^ 31 - 1) (by norm_num)
    have hw : words ("foo".toList ++ ' ' :: List.replicate (2 ^ 31 - 1) 'b')
        = ["foo".toList, List.replicate (2 ^ 31 - 1) 'b'] := by
      rw [words_word "foo".toList _ ' ' (by decide) (by decide) (by decide),
        words_single _ hne hsp]
    have hxN : NUL ∉ "foo".toList ++ ' ' :: List.replicate (2 ^ 31 - 1) 'b' := by
      intro h
      rcases List.mem_append.mp h with h | h
      · exact absurd h (by decide)
      · rcases List.mem_cons.mp h with h | h
        · exact absurd h (by decide)
        · exact hN h
    have hxl : '\n' ∉ "foo".toList ++ ' ' :: List.replicate (2 ^ 31 - 1) 'b' := by
      intro h
      rcases List.mem_append.mp h with h | h
      · exact absurd h (by decide)
      · rcases List.mem_cons.mp h with h | h
        · exact absurd h (by decide)
        · exact hl h
    have hxlen : 2 ^ 31 - 1 ≤ ("foo".toList ++ ' ' :: List.replicate (2 ^ 31 - 1) 'b').length := by
      rw [List.length_append, List.length_cons, hlen]
      omega
    refine ⟨hxN, hxl, ?_, ?_, ?_, by decide⟩
    · rw [hw]
      exact Nat.le_refl 2
    · intro o ho
      rw [hw]
      exact foo_unknown o ho
    · rw [unlines_cons]
      exact configfile_load_file_long _ _ _ hxN hxl hxlen

/-- C9, amended: for a file made of newline-terminated lines free of `NUL` and shorter than
`2^31 - 1` bytes, inserting at any line position such a line with two or more tokens whose
first token is no option name leaves the result of loading unchanged, from every starting
state; both loads run to the end of the file. -/
theorem unknown_key_tolerance (pre post : List (List Char)) (x : List Char) (cfg : Config)
    (hlines : ∀ l ∈ pre ++ x :: post, NUL ∉ l ∧ '\n' ∉ l ∧ l.length < 2 ^ 31 - 1)
    (hx : 2 ≤ (words x).length)
    (hunknown : ∀ o ∈ options, (words x).head? ≠ some o.name) :
    ∃ cfg', configfile_load_file (unlines (pre ++ x :: post)) cfg = .ok cfg' ∧
      configfile_load_file (unlines (pre ++ post)) cfg = .ok cfg' := by
  have hlines2 : ∀ l ∈ pre ++ post, NUL ∉ l ∧ '\n' ∉ l ∧ l.length < 2 ^ 31 - 1 := by
    intro l hl
    apply hlines l
    simp only [List.mem_append, List.mem_cons] at hl ⊢
    tauto
  rw [configfile_load_file_lines _ cfg hlines, configfile_load_file_lines _ cfg hlines2]
  refine ⟨_, rfl, ?_⟩
  rw [foldl_insert_noop]
  intro c
  match hwx : words x, hx with
  | name :: value :: rest, _ =>
    have hname : find_option name = none := by
      apply find_option_unknown
      intro o ho h
      apply hunknown o ho
      rw [hwx, h]; rfl
    simp only [List.take_succ_cons, List.take_zero, apply_tokens, hname]

theorem unknown_key_tolerance_witness :
    (∀ l ∈ ["key_a 1".toList] ++ "foo bar baz".toList :: ["key_b 2".toList],
      NUL ∉ l ∧ '\n' ∉ l ∧ l.length < 2 ^ 31 - 1) ∧
    2 ≤ (words "foo bar baz".toList).length ∧
    (∀ o ∈ options, (words "foo bar baz".toList).head? ≠ some o.name) ∧
    ∃ cfg', configfile_load_file
        (unlines (["key_a 1".toList] ++ "foo bar baz".toList :: ["key_b 2".toList])) defaults
        = .ok cfg' ∧
      configfile_load_file (unlines (["key_a 1".toList] ++ ["key_b 2".toList])) defaults
        = .ok cfg' :=
  have h1 : ∀ l ∈ ["key_a 1".toList] ++ "foo bar baz".toList :: ["key_b 2".toList],
      NUL ∉ l ∧ '\n' ∉ l ∧ l.length < 2 ^ 31 - 1 := by decide
  have h2 : 2 ≤ (words "foo bar baz".toList).length := by decide
  have h3 : ∀ o ∈ options, (words "foo bar baz".toList).head? ≠ some o.name := by
    intro o ho
    simp only [options, List.mem_cons, List.mem_singleton, List.not_mem_nil, or_false] at ho
    rcases ho with rfl | rfl | rfl | rfl | rfl | rfl | rfl | rfl | rfl | rfl | rfl | rfl | rfl
      | rfl <;> decide
  ⟨h1, h2, h3, unknown_key_tolerance ["key_a 1".toList] ["key_b 2".toList]
    "foo bar baz".toList defaults h1 h2 h3⟩


/-- C10 as stated fails in two ways. On a file with a `NUL` byte: after the line `abc`
followed by a `NUL`, the reader joins the next line to it, so inserting the one-token line
`fullscreen` before `fullscreen true` changes what is loaded. And for a line of `2^31 - 1`
bytes or more: the one-token line of `2^31 - 1` letters `b`, inserted before
`fullscreen true`, ends the load, so the line after it is not applied. -/
theorem malformed_line_counterexample :
    ((words "fullscreen".toList).length = 1 ∧
      configfile_load_file
          (unlines (["abc".toList ++ [NUL]] ++ "fullscreen".toList :: ["fullscreen true".toList]))
          defaults = .ok { defaults with configFullscreen := true } ∧
      configfile_load_file (unlines (["abc".toList ++ [NUL]] ++ ["fullscreen true".toList]))
          defaults = .ok defaults) ∧
    (NUL ∉ List.replicate (2 ^ 31 - 1) 'b' ∧ '\n' ∉ List.replicate (2 ^ 31 - 1) 'b' ∧
      (words (List.replicate (2 ^ 31 - 1) 'b')).length = 1 ∧
      configfile_load_file
          (unlines [List.replicate (2 ^ 31 - 1) 'b', "fullscreen true".toList])
          defaults = .ok defaults ∧
      configfile_load_file (unlines ["fullscreen true".toList]) defaults
        = .ok { defaults with configFullscreen := true }) := by
  refine ⟨by decide, ?_⟩
  obtain ⟨hN, hl, hsp, hlen⟩ := long_line_wf (2 ^ 31 - 1)
  have hne := long_line_ne_nil (2 ^ 31 - 1) (by norm_num)
  refine ⟨hN, hl, ?_, ?_, by decide⟩
  · rw [words_single _ hne hsp]
    rfl
  · rw [unlines_cons]
    exact configfile_load_file_long _ _ _ hN hl (by rw [hlen])

/-- C10, amended: for a file made of newline-terminated lines free of `NUL` and shorter than
`2^31 - 1` bytes, inserting at any line position such a line with exactly one token, or a
blank or all-whitespace line, leaves the result of loading unchanged, from every starting
state; both loads run to the end of the file, so the lines after the inserted one are
applied. -/
theorem malformed_line_tolerance (pre post : List (List Char)) (x : List Char) (cfg : Config)
    (hlines : ∀ l ∈ pre ++ x :: post, NUL ∉ l ∧ '\n' ∉ l ∧ l.length < 2 ^ 31 - 1)
    (hx : (words x).length = 1 ∨ (∀ c ∈ x, isspace c = true)) :
    ∃ cfg', configfile_load_file (unlines (pre ++ x :: post)) cfg = .ok cfg' ∧
      configfile_load_file (unlines (pre ++ post)) cfg = .ok cfg' ∧
      cfg' = post.foldl (fun c l => apply_tokens ((words l).take 2) c)
        (pre.foldl (fun c l => apply_tokens ((words l).take 2) c) cfg) := by
  have hlines2 : ∀ l ∈ pre ++ post, NUL ∉ l ∧ '\n' ∉ l ∧ l.length < 2 ^ 31 - 1 := by
    intro l hl
    apply hlines l
    simp only [List.mem_append, List.mem_cons] at hl ⊢
    tauto
  rw [configfile_load_file_lines _ cfg hlines, configfile_load_file_lines _ cfg hlines2]
  have hnoop : ∀ c, apply_tokens ((words x).take 2) c = c := by
    intro c
    rcases hx with h1 | hsp
    · match hwx : words x, h1 with
      | [w], _ => rfl
    · rw [words_all_space x hsp]; rfl
  refine ⟨_, rfl, ?_, ?_⟩
  · rw [foldl_insert_noop _ pre post x cfg hnoop]
  · rw [foldl_insert_noop _ pre post x cfg hnoop, List.foldl_append]

theorem malformed_line_tolerance_witness :
    (∀ l ∈ ["key_a 1".toList] ++ "fullscreen".toList :: ["fullscreen true".toList],
      NUL ∉ l ∧ '\n' ∉ l ∧ l.length < 2 ^ 31 - 1) ∧
    ((words "fullscreen".toList).length = 1 ∨ (∀ c ∈ "fullscreen".toList, isspace c = true)) ∧
    ∃ cfg', configfile_load_file
        (unlines (["key_a 1".toList] ++ "fullscreen".toList :: ["fullscreen true".toList]))
        defaults = .ok cfg' ∧
      configfile_load_file (unlines (["key_a 1".toList] ++ ["fullscreen true".toList])) defaults
        = .ok cfg' ∧
      cfg' = ["fullscreen true".toList].foldl (fun c l => apply_tokens ((words l).take 2) c)
        (["key_a 1".toList].foldl (fun c l => apply_tokens ((words l).take 2) c) defaults) :=
  ⟨by decide, Or.inl (by decide),
    malformed_line_tolerance ["key_a 1".toList] ["fullscreen true".toList] "fullscreen".toList
      defaults (by decide) (Or.inl (by decide))⟩

theorem splitOnP_mem_not (p : Char → Bool) : ∀ (l : List Char), ∀ w ∈ l.splitOnP p,
    ∀ c ∈ w, p c = false := by
  intro l
  induction l with
  | nil => intro w hw c hc; simp at hw; subst hw; simp at hc
  | cons x xs ih =>
    intro w hw c hc
    rw [List.splitOnP_cons] at hw
    by_cases hx : p x = true
    · rw [if_pos hx] at hw
      rcases List.mem_cons.mp hw with rfl | hw
      · simp at hc
      · exact ih w hw c hc
    · rw [if_neg hx] at hw
      rcases hs : xs.splitOnP p with _ | ⟨h, t⟩
      · exact absurd hs (List.splitOnP_ne_nil p xs)
      · rw [hs] at hw ih
        simp only [List.modifyHead_cons, List.mem_cons] at hw
        rcases hw with rfl | hw
        · rcases List.mem_cons.mp hc with rfl | hc
          · simpa using hx
          · exact ih h (by simp) c hc
        · exact ih w (by simp [hw]) c hc

theorem words_mem (l w : List Char) (hw : w ∈ words l) :
    w ≠ [] ∧ ∀ c ∈ w, isspace c = false := by
  unfold words at hw
  rw [List.mem_filter] at hw
  refine ⟨?_, splitOnP_mem_not isspace l w hw.1⟩
  intro h
  rw [h] at hw
  simp at hw

theorem cstr_head (mem : List Char) (t : Nat) (h : cstr mem t ≠ []) :
    load mem t ≠ NUL ∧ load mem t ∈ cstr mem t := by
  unfold cstr at h ⊢
  unfold load
  rcases hd : mem.drop t with _ | ⟨c, r⟩
  · rw [hd] at h; simp at h
  · have hc : mem.getD t NUL = c := by
      have := congrArg (fun l => l.getD 0 NUL) hd
      simpa [List.getD_eq_getElem?_getD, List.getElem?_drop] using this
    rw [hd] at h
    rw [hc]
    by_cases hcN : c = NUL
    · simp [List.takeWhile_cons, hcN] at h
    · exact ⟨hcN, by simp [List.takeWhile_cons, hcN]⟩

/-- C20: for every string that ends with `NUL` and every `maxTokens`, `tokenize_string`
returns without a failed `assert` in `word_split`: every position handed to `word_split`
holds a character that is neither white space nor `NUL`, every token returned is non-empty
and free of white space, and at most `maxTokens` entries of the `tokens` array are
written. -/
theorem tokenize_string_assert_valid (pre line junk : List Char) (maxTokens : Int)
    (hN : NUL ∉ line) :
    ∃ tokens mem, tokenize_string (pre ++ line ++ NUL :: junk) pre.length maxTokens
        = .ok (tokens.length, tokens, mem) ∧
      (tokens.length : Int) ≤ max maxTokens 0 ∧
      ∀ t ∈ tokens, isspace (load mem t) = false ∧ load mem t ≠ NUL ∧
        cstr mem t ≠ [] ∧ ∀ c ∈ cstr mem t, isspace c = false := by
  obtain ⟨toks, mem, hrun, hmap⟩ := tokenize_string_spec pre line junk maxTokens hN
  refine ⟨toks, mem, hrun, ?_, ?_⟩
  · have := congrArg List.length hmap
    rw [List.length_map, List.length_take] at this
    omega
  · intro t ht
    have hmem : cstr mem t ∈ toks.map (cstr mem) := List.mem_map_of_mem _ ht
    rw [hmap] at hmem
    have hw := words_mem line _ (List.mem_of_mem_take hmem)
    have hh := cstr_head mem t hw.1
    exact ⟨hw.2 _ hh.2, hh.1, hw.1, hw.2⟩

theorem tokenize_string_assert_valid_witness :
    NUL ∉ " key_a  12 x".toList ∧
    ∃ tokens mem, tokenize_string ("ab".toList ++ " key_a  12 x".toList ++ NUL :: "zz".toList)
        "ab".toList.length 2 = .ok (tokens.length, tokens, mem) ∧
      (tokens.length : Int) ≤ max 2 0 ∧
      ∀ t ∈ tokens, isspace (load mem t) = false ∧ load mem t ≠ NUL ∧
        cstr mem t ≠ [] ∧ ∀ c ∈ cstr mem t, isspace c = false :=
  ⟨by decide, tokenize_string_assert_valid "ab".toList " key_a  12 x".toList "zz".toList 2
    (by decide)⟩

/-- C15: no option name occurs twice in the option table, each name is non-empty and free of
white space, and the lookup of a token finds exactly the option whose name is the token,
case-sensitively, and none when no name is the token. -/
theorem options_names_unique :
    (options.map (fun o => o.name)).Nodup ∧
    (∀ o ∈ options, o.name ≠ [] ∧ ∀ c ∈ o.name, isspace c = false) ∧
    (∀ token o, find_option token = some o ↔ (o ∈ options ∧ o.name = token)) ∧
    (∀ token, find_option token = none ↔ ∀ o ∈ options, o.name ≠ token) ∧
    find_option "Fullscreen".toList = none ∧ find_option "KEY_A".toList = none := by
  refine ⟨by decide, fun o ho => ⟨(names_wf o ho).1, (names_wf o ho).2.1⟩, ?_, ?_, rfl, rfl⟩
  · intro token o
    constructor
    · intro h
      unfold find_option at h
      have h1 := List.find?_some h
      have h2 := List.mem_of_find?_eq_some h
      exact ⟨h2, (by simpa using h1 : token = o.name).symm⟩
    · rintro ⟨ho, rfl⟩
      exact find_option_mem o ho
  · intro token
    unfold find_option
    rw [List.find?_eq_none]
    constructor
    · intro h o ho heq
      exact h o ho (by simp [heq])
    · intro h o ho
      simpa using fun heq => h o ho heq.symm

/-- C14: a file whose first line starts with a `NUL` byte stops the loader at
`assert(offset > 0)` in `read_file_line`, also when valid lines come first. -/
theorem configfile_load_file_NUL_assert :
    configfile_load_file [NUL, '\n'] defaults = .error .assert_offset ∧
    configfile_load_file ("fullscreen true\n".toList ++ NUL :: "key_a 5\n".toList) defaults
      = .error .assert_offset := by
  decide

theorem sscanf_u_none (t : List Char) (hsp : ∀ c ∈ t, isspace c = false)
    (h1 : ∀ c r, t = c :: r → isdigit c = false)
    (h2 : ∀ s d r, t = s :: d :: r → (s = '+' ∨ s = '-') → isdigit d = false) :
    sscanf_u t = none := by
  cases t with
  | nil => rfl
  | cons c r =>
    have hc := hsp c (by simp)
    have hd := h1 c r rfl
    have hdw : (c :: r).dropWhile isspace = c :: r := by simp [List.dropWhile_cons, hc]
    unfold sscanf_u
    simp only [hdw, List.head?_cons]
    by_cases hs : c = '+' ∨ c = '-'
    · have hsign : (some c == some '-' || some c == some '+') = true := by
        rcases hs with rfl | rfl <;> decide
      have htw : (c :: r).tail.takeWhile isdigit = [] := by
        cases r with
        | nil => rfl
        | cons d r2 => simp [List.takeWhile_cons, h2 c d r2 rfl hs]
      rw [if_pos hsign, htw]
      rfl
    · have hsign : ¬ (some c == some '-' || some c == some '+') = true := by
        simp only [not_or] at hs
        simp [hs.1, hs.2]
      have htw : (c :: r).takeWhile isdigit = [] := by simp [List.takeWhile_cons, hd]
      rw [if_neg hsign, htw]
      rfl

/-- C18 as stated fails for a signed token: `+5` does not begin with a digit, yet the line
`key_a +5` stores 5 in `key_a`. -/
theorem unparsable_uint_sign_counterexample :
    (words "key_a +5".toList).take 2 = ["key_a".toList, "+5".toList] ∧
    isdigit '+' = false ∧ defaults.configKeyA = 38 ∧
    configfile_load_line ("key_a +5".toList ++ [NUL]) defaults
      = .ok { defaults with configKeyA := 5 } := by
  decide

/-- C18, amended: a line free of `NUL` whose first token names an `unsigned int` option and
whose second token begins neither with a digit nor with a sign followed by a digit leaves
every option at its prior value, and loading goes on with the lines after it: when
`read_file_line` has returned the line, the line loop continues on what is left of the
stream, with the option values as they were; and `read_file_line` does return the line when
it is terminated by a newline and shorter than `2^31 - 1` bytes, whatever follows it. -/
theorem configfile_load_line_unparsable (line junk t : List Char) (cfg : Config)
    (o : ConfigOption) (p : UIntVar) (ho : o ∈ options) (hp : o.value = .uintValue p)
    (hN : NUL ∉ line) (hw : (words line).take 2 = [o.name, t])
    (h1 : ∀ c r, t = c :: r → isdigit c = false)
    (h2 : ∀ s d r, t = s :: d :: r → (s = '+' ∨ s = '-') → isdigit d = false) :
    configfile_load_line (line ++ NUL :: junk) cfg = .ok cfg ∧
    (∀ (fuel : Nat) (file rest : FILE),
      read_file_line file = .ok (some (line ++ NUL :: junk), rest) →
      configfile_load_loop (fuel + 1) file cfg = configfile_load_loop fuel rest cfg) ∧
    (∀ (fuel : Nat) (rest : List Char), '\n' ∉ line → line.length < 2 ^ 31 - 1 →
      configfile_load_loop (fuel + 1) ⟨line ++ '\n' :: rest, false⟩ cfg
        = configfile_load_loop fuel ⟨rest, false⟩ cfg) := by
  have ht : t ∈ words line := by
    have : t ∈ (words line).take 2 := by rw [hw]; simp
    exact List.mem_of_mem_take this
  have hnone := sscanf_u_none t (words_mem line t ht).2 h1 h2
  have heff : ∀ c, apply_tokens ((words line).take 2) c = c := by
    intro c
    rw [hw]
    simp only [apply_tokens, find_option_mem o ho, set_option_value, hp, hnone]
  have hline : configfile_load_line (line ++ NUL :: junk) cfg = .ok cfg := by
    rw [configfile_load_line_spec line junk cfg hN, heff]
  refine ⟨hline, ?_, ?_⟩
  · intro fuel file rest hread
    rw [configfile_load_loop, hread]
    simp only []
    rw [hline]
  · intro fuel rest hl hlen
    rw [configfile_load_loop_step fuel line rest cfg hN hl hlen, heff]

theorem configfile_load_line_unparsable_witness :
    (⟨"key_a".toList, .uintValue .configKeyA⟩ : ConfigOption) ∈ options ∧
    NUL ∉ "key_a abc".toList ∧
    (words "key_a abc".toList).take 2 = ["key_a".toList, "abc".toList] ∧
    (∀ c r, "abc".toList = c :: r → isdigit c = false) ∧
    (∀ s d r, "abc".toList = s :: d :: r → (s = '+' ∨ s = '-') → isdigit d = false) ∧
    (configfile_load_line ("key_a abc".toList ++ NUL :: [NUL]) defaults = .ok defaults ∧
    (∀ (fuel : Nat) (file rest : FILE),
      read_file_line file = .ok (some ("key_a abc".toList ++ NUL :: [NUL]), rest) →
      configfile_load_loop (fuel + 1) file defaults
        = configfile_load_loop fuel rest defaults) ∧
    (∀ (fuel : Nat) (rest : List Char), '\n' ∉ "key_a abc".toList →
      "key_a abc".toList.length < 2 ^ 31 - 1 →
      configfile_load_loop (fuel + 1) ⟨"key_a abc".toList ++ '\n' :: rest, false⟩ defaults
        = configfile_load_loop fuel ⟨rest, false⟩ defaults)) :=
  have h1 : ∀ c r, "abc".toList = c :: r → isdigit c = false := by
    intro c r h
    have : c = 'a' := by simpa using (List.cons.inj h).1.symm
    subst this; decide
  have h2 : ∀ s d r, "abc".toList = s :: d :: r → (s = '+' ∨ s = '-') → isdigit d = false := by
    intro s d r h _
    have : d = 'b' := by
      have := (List.cons.inj (List.cons.inj h).2).1
      simpa using this.symm
    subst this; decide
  ⟨by simp [options], by decide, by decide, h1, h2,
    configfile_load_line_unparsable "key_a abc".toList [NUL] "abc".toList defaults
      ⟨"key_a".toList, .uintValue .configKeyA⟩ .configKeyA (by simp [options]) rfl
      (by decide) (by decide) h1 h2⟩

theorem option_value_unique : ∀ o1 ∈ options, ∀ o2 ∈ options, o1.value = o2.value → o1 = o2 := by
  intro o1 h1 o2 h2
  simp only [options, List.mem_cons, List.mem_singleton, List.not_mem_nil, or_false] at h1 h2
  rcases h1 with rfl | rfl | rfl | rfl | rfl | rfl | rfl | rfl | rfl | rfl | rfl | rfl | rfl | rfl
    <;> rcases h2 with rfl | rfl | rfl | rfl | rfl | rfl | rfl | rfl | rfl | rfl | rfl | rfl | rfl
      | rfl
    <;> intro h <;> first | rfl | (exfalso; simp at h)

theorem setBool_setUInt_comm (c : Config) (p : BoolVar) (b : Bool) (q : UIntVar) (n : Nat) :
    (c.setUInt q n).setBool p b = (c.setBool p b).setUInt q n := by
  cases p; cases q <;> rfl

theorem setUInt_setUInt_comm (c : Config) (p q : UIntVar) (n m : Nat) (h : p ≠ q) :
    (c.setUInt q m).setUInt p n = (c.setUInt p n).setUInt q m := by
  cases p <;> cases q <;> first | rfl | exact absurd rfl h

/-- Decoding values into two entries of the option table with different names can be done in
either order. -/
theorem set_option_value_comm (o1 o2 : ConfigOption) (h1 : o1 ∈ options) (h2 : o2 ∈ options)
    (hne : o1.name ≠ o2.name) (v1 v2 : List Char) (c : Config) :
    set_option_value o2 v2 (set_option_value o1 v1 c)
      = set_option_value o1 v1 (set_option_value o2 v2 c) := by
  have hval : o1.value ≠ o2.value := fun h => hne (by rw [option_value_unique o1 h1 o2 h2 h])
  obtain ⟨n1, val1⟩ := o1
  obtain ⟨n2, val2⟩ := o2
  cases val1 with
  | floatValue p => exact nomatch p
  | boolValue p =>
    cases val2 with
    | floatValue q => exact nomatch q
    | boolValue q => cases p; cases q; exact absurd rfl hval
    | uintValue q =>
      simp only [set_option_value]
      cases sscanf_u v2 <;> split_ifs <;> simp only [setBool_setUInt_comm]
  | uintValue p =>
    cases val2 with
    | floatValue q => exact nomatch q
    | boolValue q =>
      simp only [set_option_value]
      cases sscanf_u v1 <;> split_ifs <;> simp only [setBool_setUInt_comm]
    | uintValue q =>
      have hpq : p ≠ q := fun h => hval (by rw [h])
      simp only [set_option_value]
      cases sscanf_u v1 <;> cases sscanf_u v2 <;> simp only []
      exact setUInt_setUInt_comm c q p _ _ (Ne.symm hpq)

theorem apply_tokens_comm (x y : List Char)
    (h : ∀ o ∈ options, ¬((words x).head? = some o.name ∧ (words y).head? = some o.name))
    (c : Config) :
    apply_tokens ((words y).take 2) (apply_tokens ((words x).take 2) c)
      = apply_tokens ((words x).take 2) (apply_tokens ((words y).take 2) c) := by
  rcases hx : words x with _ | ⟨n1, _ | ⟨v1, r1⟩⟩
  · rfl
  · rfl
  rcases hy : words y with _ | ⟨n2, _ | ⟨v2, r2⟩⟩
  · rfl
  · rfl
  simp only [List.take_succ_cons, List.take_zero, apply_tokens]
  rcases ho1 : find_option n1 with _ | o1
  · rfl
  rcases ho2 : find_option n2 with _ | o2
  · rfl
  simp only []
  have m1 := List.mem_of_find?_eq_some ho1
  have m2 := List.mem_of_find?_eq_some ho2
  have e1 : n1 = o1.name := by simpa using List.find?_some ho1
  have e2 : n2 = o2.name := by simpa using List.find?_some ho2
  apply set_option_value_comm o1 o2 m1 m2
  intro hn
  apply h o1 m1
  rw [hx, hy, e1, e2, hn]
  exact ⟨rfl, rfl⟩

/-- C16 as stated fails in two ways. On a file with a `NUL` byte: the line `abc` followed
by a `NUL` swallows the line after it, so it matters whether `fullscreen true` comes before
or after it. And for a line of `2^31 - 1` bytes or more: the load ends at the line of
`2^31 - 1` letters `b`, so `fullscreen true` is applied when it comes before that line and
not when it comes after it. -/
theorem load_order_counterexample :
    (List.Perm ["abc".toList ++ [NUL], "fullscreen true".toList]
        ["fullscreen true".toList, "abc".toList ++ [NUL]] ∧
      List.Pairwise (fun a b => ∀ o ∈ options,
          ¬((words a).head? = some o.name ∧ (words b).head? = some o.name))
        ["abc".toList ++ [NUL], "fullscreen true".toList] ∧
      configfile_load_file (unlines ["abc".toList ++ [NUL], "fullscreen true".toList]) defaults
        = .ok defaults ∧
      configfile_load_file (unlines ["fullscreen true".toList, "abc".toList ++ [NUL]]) defaults
        = .ok { defaults with configFullscreen := true }) ∧
    (List.Perm [List.replicate (2 ^ 31 - 1) 'b', "fullscreen true".toList]
        ["fullscreen true".toList, List.replicate (2 ^ 31 - 1) 'b'] ∧
      (∀ l ∈ [List.replicate (2 ^ 31 - 1) 'b', "fullscreen true".toList],
        NUL ∉ l ∧ '\n' ∉ l) ∧
      List.Pairwise (fun a b => ∀ o ∈ options,
          ¬((words a).head? = some o.name ∧ (words b).head? = some o.name))
        [List.replicate (2 ^ 31 - 1) 'b', "fullscreen true".toList] ∧
      configfile_load_file
          (unlines [List.replicate (2 ^ 31 - 1) 'b', "fullscreen true".toList]) defaults
        = .ok defaults ∧
      configfile_load_file
          (unlines ["fullscreen true".toList, List.replicate (2 ^ 31 - 1) 'b']) defaults
        = .ok { defaults with configFullscreen := true }) := by
  have hfull : (words "fullscreen true".toList).head? = some "fullscreen".toList := by decide
  refine ⟨⟨List.Perm.swap _ _ _, ?_, by decide, by decide⟩, ?_⟩
  · rw [List.pairwise_pair]
    intro o _ h
    have : (words ("abc".toList ++ [NUL])).head? = some ("abc".toList ++ [NUL]) := by decide
    rw [this] at h
    have h1 := h.1
    have h2 := h.2
    rw [hfull, ← h1] at h2
    revert h2
    decide
  · obtain ⟨hN, hl, hsp, hlen⟩ := long_line_wf (2 ^ 31 - 1)
    have hne := long_line_ne_nil (2 ^ 31 - 1) (by norm_num)
    refine ⟨List.Perm.swap _ _ _, ?_, ?_, ?_, ?_⟩
    · intro l h
      rcases List.mem_cons.mp h with rfl | h
      · exact ⟨hN, hl⟩
      · rw [List.mem_singleton] at h
        subst h
        decide
    · rw [List.pairwise_pair]
      intro o _ h
      have h1 := h.1
      have h2 := h.2
      rw [words_single _ hne hsp] at h1
      rw [hfull, ← h1] at h2
      have h3 : "fullscreen".toList = List.replicate (2 ^ 31 - 1) 'b' :=
        Option.some.inj h2
      have h4 : 'f' ∈ List.replicate (2 ^ 31 - 1) 'b' := by
        rw [← h3]
        decide
      exact absurd (List.eq_of_mem_replicate h4) (by decide)
    · rw [unlines_cons]
      exact configfile_load_file_long _ _ _ hN hl (by rw [hlen])
    · have hu : unlines ["fullscreen true".toList, List.replicate (2 ^ 31 - 1) 'b']
          = "fullscreen true".toList ++ '\n' :: (List.replicate (2 ^ 31 - 1) 'b' ++ '\n' :: []) := by
        rw [unlines_cons, unlines_cons]
        rfl
      rw [hu, configfile_load_file_short_long _ _ _ _ (by decide) (by decide) (by decide) hN hl
        (by rw [hlen])]
      rfl

/-- C16, amended: two files made of newline-terminated lines free of `NUL` and shorter than
`2^31 - 1` bytes, the lines of one a permutation of the lines of the other, no option name
being the first token of more than one line, load to the same option values from the same
starting state. -/
theorem load_order_irrelevant (l1 l2 : List (List Char)) (cfg : Config)
    (hperm : l1.Perm l2) (hlines : ∀ l ∈ l1, NUL ∉ l ∧ '\n' ∉ l ∧ l.length < 2 ^ 31 - 1)
    (huniq : l1.Pairwise (fun a b => ∀ o ∈ options,
      ¬((words a).head? = some o.name ∧ (words b).head? = some o.name))) :
    ∃ cfg', configfile_load_file (unlines l1) cfg = .ok cfg' ∧
      configfile_load_file (unlines l2) cfg = .ok cfg' := by
  have hlines2 : ∀ l ∈ l2, NUL ∉ l ∧ '\n' ∉ l ∧ l.length < 2 ^ 31 - 1 :=
    fun l hl => hlines l (hperm.mem_iff.mpr hl)
  rw [configfile_load_file_lines l1 cfg hlines, configfile_load_file_lines l2 cfg hlines2]
  refine ⟨_, rfl, ?_⟩
  congr 1
  symm
  apply List.Perm.foldl_eq' hperm
  intro x hx y hy z
  by_cases hxy : x = y
  · rw [hxy]
  · have hsymm : Symmetric (fun a b : List Char => ∀ o ∈ options,
        ¬((words a).head? = some o.name ∧ (words b).head? = some o.name)) := by
      intro a b hab o ho h
      exact hab o ho ⟨h.2, h.1⟩
    exact apply_tokens_comm x y (huniq.forall hsymm hx hy hxy) z

theorem load_order_irrelevant_witness :
    List.Perm ["key_b 2".toList, "junk".toList, "key_a 1".toList]
      ["key_a 1".toList, "key_b 2".toList, "junk".toList] ∧
    (∀ l ∈ ["key_b 2".toList, "junk".toList, "key_a 1".toList],
      NUL ∉ l ∧ '\n' ∉ l ∧ l.length < 2 ^ 31 - 1) ∧
    ∃ cfg', configfile_load_file
        (unlines ["key_b 2".toList, "junk".toList, "key_a 1".toList]) defaults = .ok cfg' ∧
      configfile_load_file
        (unlines ["key_a 1".toList, "key_b 2".toList, "junk".toList]) defaults = .ok cfg' :=
  have hperm : List.Perm ["key_b 2".toList, "junk".toList, "key_a 1".toList]
      ["key_a 1".toList, "key_b 2".toList, "junk".toList] := by decide
  have hlines : ∀ l ∈ ["key_b 2".toList, "junk".toList, "key_a 1".toList],
      NUL ∉ l ∧ '\n' ∉ l ∧ l.length < 2 ^ 31 - 1 := by decide
  ⟨hperm, hlines, load_order_irrelevant _ _ defaults hperm hlines (by
    simp only [List.pairwise_cons, List.mem_cons, List.mem_singleton, List.not_mem_nil,
      forall_eq_or_imp, forall_eq, List.Pairwise.nil, and_true, or_false, IsEmpty.forall_iff,
      implies_true]
    have w1 : (words "key_b 2".toList).head? = some "key_b".toList := by decide
    have w2 : (words "junk".toList).head? = some "junk".toList := by decide
    have w3 : (words "key_a 1".toList).head? = some "key_a".toList := by decide
    rw [w1, w2, w3]
    refine ⟨⟨?_, ?_⟩, ?_⟩ <;> intro o _ h <;> have h1 := h.1 <;> have h2 := h.2 <;>
      rw [Option.some.injEq] at h1 h2 <;> rw [← h1] at h2 <;> revert h2 <;> decide)⟩

theorem lookup_cons_self (k : Path × List Char) (v : List Char)
    (l : List ((Path × List Char) × List Char)) : List.lookup k ((k, v) :: l) = some v := by
  simp [List.lookup]

theorem lookup_cons_other (k k' : Path × List Char) (v : List Char)
    (l : List ((Path × List Char) × List Char)) (h : k' ≠ k) :
    List.lookup k' ((k, v) :: l) = List.lookup k' l := by
  have : (k' == k) = false := by simpa using h
  simp [List.lookup, this]

/-! ### The preferred directory -/

theorem SDL_GetPrefPath_present (sdl : SDL) (s : Sys) (h : sdl.prefPath ∈ s.dirs) :
    SDL_GetPrefPath sdl s = (some sdl.prefPath, { s with errno := EEXIST }) := by
  simp [SDL_GetPrefPath, h]

theorem SDL_GetPrefPath_created (sdl : SDL) (s : Sys) (h : sdl.prefPath ∉ s.dirs)
    (hd : sdl.prefPath ∉ s.denied) :
    SDL_GetPrefPath sdl s
      = (some sdl.prefPath, { s with dirs := sdl.prefPath :: s.dirs, errno := EEXIST }) := by
  simp [SDL_GetPrefPath, h, hd]

theorem SDL_GetPrefPath_refused (sdl : SDL) (s : Sys) (h : sdl.prefPath ∉ s.dirs)
    (hd : sdl.prefPath ∈ s.denied) :
    SDL_GetPrefPath sdl s = (none, { s with errno := EACCES }) := by
  simp [SDL_GetPrefPath, h, hd]

/-- Lines 261-290 of `configfile_save` with the preferred directory in place: the function
returns; if the file can be opened there it holds the text of the option values and no
other file changes, otherwise no file changes. -/
theorem configfile_save_write_spec (sdl : SDL) (filename : List Char) (s : Sys) (cfg : Config)
    (h : sdl.prefPath ∈ s.dirs) :
    ∃ s1, configfile_save_write sdl filename (SDL_GetBasePath sdl) (some sdl.prefPath) s cfg
        = .ok (s1, cfg) ∧
      s1.dirs = s.dirs ∧ s1.readonly = s.readonly ∧ s1.denied = s.denied ∧
      (sdl.prefPath ∉ s.readonly →
        s1.read sdl.prefPath filename = some (configfile_save_text cfg) ∧
        ∀ d n, (d, n) ≠ (sdl.prefPath, filename) → s1.read d n = s.read d n) ∧
      (sdl.prefPath ∈ s.readonly → s1.files = s.files) := by
  unfold configfile_save_write
  simp only [closedir, SDL_GetPrefPath, if_pos h, chdir, fopen_write, SDL_GetBasePath]
  by_cases hr : sdl.prefPath ∈ s.readonly
  · by_cases hb : sdl.basePath ∈ s.dirs
    · simp [h, hr, hb]
    · simp [h, hr, hb]
  · by_cases hb : sdl.basePath ∈ s.dirs
    · simp only [h, hr, hb, not_false_eq_true, and_self, if_true, fclose_written]
      refine ⟨_, rfl, rfl, rfl, rfl, fun _ => ⟨lookup_cons_self _ _ _, ?_⟩,
        fun h => False.elim h⟩
      intro d n hdn
      show List.lookup (d, n) (_ :: _ :: s.files) = List.lookup (d, n) s.files
      rw [lookup_cons_other _ _ _ _ hdn, lookup_cons_other _ _ _ _ hdn]
    · simp only [h, hr, hb, not_false_eq_true, and_self, if_true, if_false, fclose_written]
      refine ⟨_, rfl, rfl, rfl, rfl, fun _ => ⟨lookup_cons_self _ _ _, ?_⟩,
        fun h => False.elim h⟩
      intro d n hdn
      show List.lookup (d, n) (_ :: _ :: s.files) = List.lookup (d, n) s.files
      rw [lookup_cons_other _ _ _ _ hdn, lookup_cons_other _ _ _ _ hdn]

/-- The function `configfile_save` when the preferred directory exists: it returns; if the
file can be opened there it holds the text of the option values and no other file
changes, otherwise no file changes. -/
theorem configfile_save_present (sdl : SDL) (filename : List Char) (s : Sys) (cfg : Config)
    (h : sdl.prefPath ∈ s.dirs) :
    ∃ s1, configfile_save sdl filename s cfg = .ok (s1, cfg) ∧
      s1.dirs = s.dirs ∧ s1.readonly = s.readonly ∧ s1.denied = s.denied ∧
      (sdl.prefPath ∉ s.readonly →
        s1.read sdl.prefPath filename = some (configfile_save_text cfg) ∧
        ∀ d n, (d, n) ≠ (sdl.prefPath, filename) → s1.read d n = s.read d n) ∧
      (sdl.prefPath ∈ s.readonly → s1.files = s.files) := by
  have hne : EEXIST ≠ ENOENT := by decide
  unfold configfile_save
  simp only [SDL_GetPrefPath, if_pos h, opendir, hne, if_false]
  exact configfile_save_write_spec sdl filename { s with errno := EEXIST } cfg h

/-- The function `configfile_save` when the preferred directory is absent and can be
created: the first call of `SDL_GetPrefPath` creates it. -/
theorem configfile_save_created (sdl : SDL) (filename : List Char) (s : Sys) (cfg : Config)
    (h : sdl.prefPath ∉ s.dirs) (hd : sdl.prefPath ∉ s.denied) :
    configfile_save sdl filename s cfg
      = configfile_save sdl filename
          { s with dirs := sdl.prefPath :: s.dirs, errno := EEXIST } cfg := by
  unfold configfile_save
  simp only [SDL_GetPrefPath, h, hd, if_false, List.mem_cons, true_or, if_true]

/-- The function `configfile_save` when the preferred directory is absent and its creation
is refused: `SDL_GetPrefPath` returns `NULL`, which line 248 hands to `opendir`. -/
theorem configfile_save_refused (sdl : SDL) (filename : List Char) (s : Sys) (cfg : Config)
    (h : sdl.prefPath ∉ s.dirs) (hd : sdl.prefPath ∈ s.denied) :
    configfile_save sdl filename s cfg = .error .null_pointer := by
  unfold configfile_save
  simp [SDL_GetPrefPath, h, hd, opendir]

/-- The function `configfile_save` when the preferred directory exists or can be created:
it returns with the directory in place; if the file can be opened there it holds the text
of the option values and no other file changes, otherwise no file changes. -/
theorem configfile_save_ok (sdl : SDL) (filename : List Char) (s : Sys) (cfg : Config)
    (hok : sdl.prefPath ∈ s.dirs ∨ sdl.prefPath ∉ s.denied) :
    ∃ s1, configfile_save sdl filename s cfg = .ok (s1, cfg) ∧
      sdl.prefPath ∈ s1.dirs ∧ (∀ d, d ∈ s1.dirs ↔ d ∈ s.dirs ∨ d = sdl.prefPath) ∧
      s1.readonly = s.readonly ∧ s1.denied = s.denied ∧
      (sdl.prefPath ∉ s.readonly →
        s1.read sdl.prefPath filename = some (configfile_save_text cfg) ∧
        ∀ d n, (d, n) ≠ (sdl.prefPath, filename) → s1.read d n = s.read d n) ∧
      (sdl.prefPath ∈ s.readonly → s1.files = s.files) := by
  by_cases h : sdl.prefPath ∈ s.dirs
  · obtain ⟨s1, h1, hd1, hr1, hn1, hw1, hf1⟩ := configfile_save_present sdl filename s cfg h
    refine ⟨s1, h1, hd1 ▸ h, ?_, hr1, hn1, hw1, hf1⟩
    intro d
    rw [hd1]
    constructor
    · exact Or.inl
    · rintro (hd | rfl)
      · exact hd
      · exact h
  · have hd : sdl.prefPath ∉ s.denied := hok.resolve_left h
    rw [configfile_save_created sdl filename s cfg h hd]
    obtain ⟨s1, h1, hd1, hr1, hn1, hw1, hf1⟩ := configfile_save_present sdl filename
      { s with dirs := sdl.prefPath :: s.dirs, errno := EEXIST } cfg (by simp)
    refine ⟨s1, h1, by rw [hd1]; simp, ?_, hr1, hn1, hw1, hf1⟩
    intro d
    rw [hd1]
    simp only [List.mem_cons]
    tauto

/-- C17: a call of `configfile_save` that returns leaves every option value as it was, and a
second call right after it returns too and leaves every file with the same content; where
the file can be opened its content is the text of the option values, which depends on
nothing else. -/
theorem configfile_save_twice (sdl : SDL) (filename : List Char) (s : Sys) (cfg : Config)
    (r : Sys × Config) (h : configfile_save sdl filename s cfg = .ok r) :
    r.2 = cfg ∧
    ∃ s2, configfile_save sdl filename r.1 r.2 = .ok (s2, cfg) ∧
      (∀ d n, s2.read d n = r.1.read d n) ∧
      (sdl.prefPath ∉ s.readonly →
        r.1.read sdl.prefPath filename = some (configfile_save_text cfg) ∧
        s2.read sdl.prefPath filename = some (configfile_save_text cfg)) := by
  by_cases hok : sdl.prefPath ∈ s.dirs ∨ sdl.prefPath ∉ s.denied
  · obtain ⟨s1, h1, hp1, _, hr1, _, hw1, hn1⟩ := configfile_save_ok sdl filename s cfg hok
    rw [h1] at h
    have hr : r = (s1, cfg) := (Except.ok.inj h).symm
    subst hr
    obtain ⟨s2, h2, _, _, _, hw2, hn2⟩ := configfile_save_present sdl filename s1 cfg hp1
    refine ⟨rfl, s2, h2, ?_, ?_⟩
    · intro d n
      by_cases hro : sdl.prefPath ∈ s.readonly
      · show List.lookup (d, n) s2.files = List.lookup (d, n) s1.files
        rw [hn2 (hr1 ▸ hro)]
      · by_cases hdn : (d, n) = (sdl.prefPath, filename)
        · have hd : d = sdl.prefPath := (Prod.mk.inj hdn).1
          have hn : n = filename := (Prod.mk.inj hdn).2
          rw [hd, hn, (hw2 (hr1 ▸ hro)).1, (hw1 hro).1]
        · exact (hw2 (hr1 ▸ hro)).2 d n hdn
    · intro hro
      exact ⟨(hw1 hro).1, (hw2 (hr1 ▸ hro)).1⟩
  · rw [not_or, not_not] at hok
    rw [configfile_save_refused sdl filename s cfg hok.1 hok.2] at h
    exact absurd h (by simp)

theorem configfile_save_twice_witness :
    configfile_save ⟨"/pref/".toList, "/base/".toList⟩ "cfg".toList
        ⟨["/pref/".toList, "/base/".toList], [], [], [], "/base/".toList, 0⟩ defaults
      = .ok (fclose_written ("/pref/".toList, "cfg".toList) (configfile_save_text defaults)
          ⟨["/pref/".toList, "/base/".toList], [(("/pref/".toList, "cfg".toList), [])], [], [],
            "/base/".toList, EEXIST⟩, defaults) ∧
    ∃ s2, configfile_save ⟨"/pref/".toList, "/base/".toList⟩ "cfg".toList
        (fclose_written ("/pref/".toList, "cfg".toList) (configfile_save_text defaults)
          ⟨["/pref/".toList, "/base/".toList], [(("/pref/".toList, "cfg".toList), [])], [], [],
            "/base/".toList, EEXIST⟩) defaults = .ok (s2, defaults) ∧
      (∀ d n, s2.read d n
        = (fclose_written ("/pref/".toList, "cfg".toList) (configfile_save_text defaults)
          ⟨["/pref/".toList, "/base/".toList], [(("/pref/".toList, "cfg".toList), [])], [], [],
            "/base/".toList, EEXIST⟩).read d n) :=
  have h : configfile_save ⟨"/pref/".toList, "/base/".toList⟩ "cfg".toList
        ⟨["/pref/".toList, "/base/".toList], [], [], [], "/base/".toList, 0⟩ defaults
      = .ok (fclose_written ("/pref/".toList, "cfg".toList) (configfile_save_text defaults)
          ⟨["/pref/".toList, "/base/".toList], [(("/pref/".toList, "cfg".toList), [])], [], [],
            "/base/".toList, EEXIST⟩, defaults) := by rfl
  ⟨h, (configfile_save_twice _ _ _ _ _ h).2.imp (fun _ hs => ⟨hs.1, hs.2.1⟩)⟩

/-- The function `configfile_load` when the preferred directory exists or can be created and
does not hold the file: the file of the working directory is not looked at, and
`configfile_save` is called with the directory in place and every file as it was. -/
theorem configfile_load_not_found (sdl : SDL) (filename : List Char) (s : Sys) (cfg : Config)
    (hok : sdl.prefPath ∈ s.dirs ∨ sdl.prefPath ∉ s.denied)
    (hpref : s.read sdl.prefPath filename = none) :
    ∃ s0, configfile_load sdl filename s cfg = configfile_save sdl filename s0 cfg ∧
      sdl.prefPath ∈ s0.dirs ∧ (∀ d, d ∈ s0.dirs ↔ d ∈ s.dirs ∨ d = sdl.prefPath) ∧
      s0.files = s.files ∧ s0.readonly = s.readonly ∧ s0.denied = s.denied := by
  have hne : EEXIST ≠ ENOENT := by decide
  have hpref' : List.lookup (sdl.prefPath, filename) s.files = none := hpref
  by_cases h : sdl.prefPath ∈ s.dirs
  · unfold configfile_load
    simp only [SDL_GetPrefPath, if_pos h, opendir, hne, if_false, chdir, fopen_read, Sys.read,
      hpref', closedir, SDL_GetBasePath]
    have hiff : ∀ d, d ∈ s.dirs ↔ d ∈ s.dirs ∨ d = sdl.prefPath := by
      intro d
      constructor
      · exact Or.inl
      · rintro (hd | rfl)
        · exact hd
        · exact h
    by_cases hb : sdl.basePath ∈ s.dirs
    · simp only [if_pos hb]
      exact ⟨_, rfl, h, hiff, rfl, rfl, rfl⟩
    · simp only [if_neg hb]
      exact ⟨_, rfl, h, hiff, rfl, rfl, rfl⟩
  · have hd : sdl.prefPath ∉ s.denied := hok.resolve_left h
    unfold configfile_load
    simp only [SDL_GetPrefPath, h, hd, if_false, List.mem_cons, true_or, if_true, opendir, hne,
      chdir, fopen_read, Sys.read, hpref', closedir, SDL_GetBasePath]
    have hmem : sdl.prefPath ∈ sdl.prefPath :: s.dirs := by simp
    have hiff : ∀ d, d ∈ sdl.prefPath :: s.dirs ↔ d ∈ s.dirs ∨ d = sdl.prefPath := by
      intro d
      simp only [List.mem_cons]
      tauto
    by_cases hb : sdl.basePath = sdl.prefPath ∨ sdl.basePath ∈ s.dirs
    · simp only [if_pos hb]
      exact ⟨_, rfl, hmem, hiff, rfl, rfl, rfl⟩
    · simp only [if_neg hb]
      exact ⟨_, rfl, hmem, hiff, rfl, rfl, rfl⟩

/-- C12 as stated fails in two ways. Where no file can be opened for writing in the
preferred directory, `configfile_save` returns at its `fopen` test and the load returns with
no file written. Where the preferred directory is absent and its creation is refused,
`SDL_GetPrefPath` returns `NULL`, line 158 hands it to `opendir`, and the load does not
return. In both states neither directory holds the file. -/
theorem fallback_trigger_counterexample :
    ((⟨["/pref/".toList, "/base/".toList], [], [], ["/pref/".toList], "/base/".toList, 0⟩ :
        Sys).read "/pref/".toList "cfg".toList = none ∧
      (⟨["/pref/".toList, "/base/".toList], [], [], ["/pref/".toList], "/base/".toList, 0⟩ :
        Sys).read "/base/".toList "cfg".toList = none ∧
      (configfile_load ⟨"/pref/".toList, "/base/".toList⟩ "cfg".toList
          ⟨["/pref/".toList, "/base/".toList], [], [], ["/pref/".toList], "/base/".toList, 0⟩
          defaults).map (fun r => (r.1.files, r.2))
        = .ok ([], defaults)) ∧
    ((⟨["/base/".toList], [], ["/pref/".toList], [], "/base/".toList, 0⟩ : Sys).read
          "/pref/".toList "cfg".toList = none ∧
      (⟨["/base/".toList], [], ["/pref/".toList], [], "/base/".toList, 0⟩ : Sys).read
          "/base/".toList "cfg".toList = none ∧
      SDL_GetPrefPath ⟨"/pref/".toList, "/base/".toList⟩
          ⟨["/base/".toList], [], ["/pref/".toList], [], "/base/".toList, 0⟩
        = (none, ⟨["/base/".toList], [], ["/pref/".toList], [], "/base/".toList, EACCES⟩) ∧
      configfile_load ⟨"/pref/".toList, "/base/".toList⟩ "cfg".toList
          ⟨["/base/".toList], [], ["/pref/".toList], [], "/base/".toList, 0⟩ defaults
        = .error .null_pointer) := by
  decide

/-- C12, amended: when the preferred directory exists or can be created and a file can be
opened for writing in it, and neither it nor the working directory holds the file,
`configfile_load` returns with every option value unchanged, the file in the preferred
directory holding the text of the option values, no other file changed, and no directory
changed but the preferred one, which exists. -/
theorem fallback_trigger (sdl : SDL) (filename : List Char) (s : Sys) (cfg : Config)
    (hok : sdl.prefPath ∈ s.dirs ∨ sdl.prefPath ∉ s.denied)
    (hro : sdl.prefPath ∉ s.readonly)
    (hpref : s.read sdl.prefPath filename = none) (_hcwd : s.read s.cwd filename = none) :
    ∃ s', configfile_load sdl filename s cfg = .ok (s', cfg) ∧
      s'.read sdl.prefPath filename = some (configfile_save_text cfg) ∧
      (∀ d n, (d, n) ≠ (sdl.prefPath, filename) → s'.read d n = s.read d n) ∧
      (∀ d, d ∈ s'.dirs ↔ d ∈ s.dirs ∨ d = sdl.prefPath) := by
  obtain ⟨s0, h0, hp0, hd0, hf0, hr0, _⟩ := configfile_load_not_found sdl filename s cfg hok hpref
  obtain ⟨s1, h1, hd1, _, _, hw1, _⟩ := configfile_save_present sdl filename s0 cfg hp0
  have hw := hw1 (hr0 ▸ hro)
  refine ⟨s1, h0.trans h1, hw.1, ?_, ?_⟩
  · intro d n hdn
    rw [hw.2 d n hdn]
    show List.lookup (d, n) s0.files = List.lookup (d, n) s.files
    rw [hf0]
  · intro d
    rw [hd1]
    exact hd0 d

theorem fallback_trigger_witness :
    ("/pref/".toList ∈ ["/base/".toList] ∨ "/pref/".toList ∉ ([] : List Path)) ∧
    ∃ s', configfile_load ⟨"/pref/".toList, "/base/".toList⟩ "cfg".toList
        ⟨["/base/".toList], [(("/base/".toList, "other".toList), [])], [], [],
          "/base/".toList, 0⟩ defaults = .ok (s', defaults) ∧
      s'.read "/pref/".toList "cfg".toList = some (configfile_save_text defaults) ∧
      (∀ d n, (d, n) ≠ ("/pref/".toList, "cfg".toList) → s'.read d n
        = (⟨["/base/".toList], [(("/base/".toList, "other".toList), [])], [],
          [], "/base/".toList, 0⟩ : Sys).read d n) ∧
      (∀ d, d ∈ s'.dirs ↔ d ∈ ["/base/".toList] ∨ d = "/pref/".toList) :=
  ⟨by decide, fallback_trigger ⟨"/pref/".toList, "/base/".toList⟩ "cfg".toList
    ⟨["/base/".toList], [(("/base/".toList, "other".toList), [])], [], [],
      "/base/".toList, 0⟩ defaults (by decide) (by decide) (by decide) (by decide)⟩

/-- C11: after a call of `SDL_GetPrefPath` that returns the path, the preferred directory
exists and `errno` is `EEXIST`, so the test `ENOENT == errno` of line 161 fails. With the
preferred directory absent (and creatable) and the file `fullscreen true` in the working
directory, `configfile_load` does not read that file: the directory is created, the option
values stay at their defaults and are written to the preferred directory, where reading the
file would have set `fullscreen`. With the preferred directory in place its file is read,
also when `errno` is `ENOENT` at the call. -/
theorem configfile_load_skips_working_directory :
    (∀ (sdl : SDL) (s : Sys), (SDL_GetPrefPath sdl s).1 = none ∨
      ((SDL_GetPrefPath sdl s).1 = some sdl.prefPath ∧
        sdl.prefPath ∈ (SDL_GetPrefPath sdl s).2.dirs ∧
        (SDL_GetPrefPath sdl s).2.errno = EEXIST)) ∧
    EEXIST ≠ ENOENT ∧
    "/home/u/.local/share/sm64pc/".toList ∉ ["/opt/sm64/".toList, "/home/u/".toList] ∧
    (⟨["/opt/sm64/".toList, "/home/u/".toList],
        [(("/home/u/".toList, "sm64config.txt".toList), "fullscreen true\n".toList)],
        [], [], "/home/u/".toList, 0⟩ : Sys).read "/home/u/".toList "sm64config.txt".toList
      = some "fullscreen true\n".toList ∧
    (configfile_load ⟨"/home/u/.local/share/sm64pc/".toList, "/opt/sm64/".toList⟩
        "sm64config.txt".toList
        ⟨["/opt/sm64/".toList, "/home/u/".toList],
          [(("/home/u/".toList, "sm64config.txt".toList), "fullscreen true\n".toList)],
          [], [], "/home/u/".toList, 0⟩ defaults).map
        (fun r => (r.2, r.1.dirs,
          r.1.read "/home/u/.local/share/sm64pc/".toList "sm64config.txt".toList))
      = .ok (defaults,
          ["/home/u/.local/share/sm64pc/".toList, "/opt/sm64/".toList, "/home/u/".toList],
          some (configfile_save_text defaults)) ∧
    configfile_load_file "fullscreen true\n".toList defaults
      = .ok { defaults with configFullscreen := true } ∧
    (configfile_load ⟨"/home/u/.local/share/sm64pc/".toList, "/opt/sm64/".toList⟩
        "sm64config.txt".toList
        ⟨["/home/u/.local/share/sm64pc/".toList, "/opt/sm64/".toList, "/home/u/".toList],
          [(("/home/u/.local/share/sm64pc/".toList, "sm64config.txt".toList),
              "fullscreen true\n".toList),
            (("/home/u/".toList, "sm64config.txt".toList), "key_a 5\n".toList)],
          [], [], "/home/u/".toList, ENOENT⟩ defaults).map (fun r => r.2)
      = .ok { defaults with configFullscreen := true } := by
  refine ⟨?_, by decide, by decide, by decide, by rfl, by decide, by decide⟩
  intro sdl s
  by_cases h : sdl.prefPath ∈ s.dirs
  · right
    rw [SDL_GetPrefPath_present sdl s h]
    exact ⟨rfl, h, rfl⟩
  · by_cases hd : sdl.prefPath ∈ s.denied
    · left
      rw [SDL_GetPrefPath_refused sdl s h hd]
    · right
      rw [SDL_GetPrefPath_created sdl s h hd]
      exact ⟨rfl, by simp, rfl⟩

/-- C13: `configfile_save` never ends the process with `exit`. With the preferred directory
absent and its creation refused, `SDL_GetPrefPath` returns `NULL` with `errno = EACCES`, and
line 248 hands the null pointer to `opendir`: the process does not reach `exit(ENOENT)`.
With the preferred directory absent and creatable the directory is created and the file is
written in it, none in the working directory. -/
theorem configfile_save_never_exits :
    (∀ (sdl : SDL) (filename : List Char) (s : Sys) (cfg : Config) (status : Nat),
      configfile_save sdl filename s cfg ≠ .error (.exit status)) ∧
    "/home/u/.local/share/sm64pc/".toList ∉ ["/opt/sm64/".toList, "/home/u/".toList] ∧
    SDL_GetPrefPath ⟨"/home/u/.local/share/sm64pc/".toList, "/opt/sm64/".toList⟩
        ⟨["/opt/sm64/".toList, "/home/u/".toList], [], ["/home/u/.local/share/sm64pc/".toList],
          [], "/home/u/".toList, 0⟩
      = (none, ⟨["/opt/sm64/".toList, "/home/u/".toList], [],
          ["/home/u/.local/share/sm64pc/".toList], [], "/home/u/".toList, EACCES⟩) ∧
    configfile_save ⟨"/home/u/.local/share/sm64pc/".toList, "/opt/sm64/".toList⟩
        "sm64config.txt".toList
        ⟨["/opt/sm64/".toList, "/home/u/".toList], [], ["/home/u/.local/share/sm64pc/".toList],
          [], "/home/u/".toList, 0⟩ defaults
      = .error .null_pointer ∧
    (configfile_save ⟨"/home/u/.local/share/sm64pc/".toList, "/opt/sm64/".toList⟩
        "sm64config.txt".toList
        ⟨["/opt/sm64/".toList, "/home/u/".toList], [], [], [], "/home/u/".toList, 0⟩
        defaults).map
        (fun r => (r.1.dirs,
          r.1.read "/home/u/.local/share/sm64pc/".toList "sm64config.txt".toList,
          r.1.read "/home/u/".toList "sm64config.txt".toList,
          r.1.read "/opt/sm64/".toList "sm64config.txt".toList))
      = .ok (["/home/u/.local/share/sm64pc/".toList, "/opt/sm64/".toList, "/home/u/".toList],
          some (configfile_save_text defaults), none, none) := by
  refine ⟨?_, by decide, by decide, by decide, by rfl⟩
  intro sdl filename s cfg status h
  by_cases hok : sdl.prefPath ∈ s.dirs ∨ sdl.prefPath ∉ s.denied
  · obtain ⟨s1, h1, _⟩ := configfile_save_ok sdl filename s cfg hok
    rw [h1] at h
    exact absurd h (by simp)
  · rw [not_or, not_not] at hok
    rw [configfile_save_refused sdl filename s cfg hok.1 hok.2] at h
    exact absurd h (by simp)

/-- C19: started in `/home/u/` with the executable in `/opt/sm64/`, both `configfile_load`
(file found in the preferred directory) and `configfile_save` return with the working
directory changed to `/opt/sm64/`. -/
theorem working_directory_not_restored :
    (configfile_load ⟨"/home/u/.local/share/sm64pc/".toList, "/opt/sm64/".toList⟩
        "sm64config.txt".toList
        ⟨["/home/u/.local/share/sm64pc/".toList, "/opt/sm64/".toList, "/home/u/".toList],
          [(("/home/u/.local/share/sm64pc/".toList, "sm64config.txt".toList),
              "fullscreen true\n".toList)],
          [], [], "/home/u/".toList, 0⟩ defaults).map (fun r => r.1.cwd)
      = .ok "/opt/sm64/".toList ∧
    (configfile_save ⟨"/home/u/.local/share/sm64pc/".toList, "/opt/sm64/".toList⟩
        "sm64config.txt".toList
        ⟨["/home/u/.local/share/sm64pc/".toList, "/opt/sm64/".toList, "/home/u/".toList],
          [], [], [], "/home/u/".toList, 0⟩ defaults).map (fun r => r.1.cwd)
      = .ok "/opt/sm64/".toList ∧
    "/opt/sm64/".toList ≠ "/home/u/".toList := by
  decide

end Configfile
